import Mathlib

/-!
Verification of the leidenalg optimiser core.

The only implementation file of the repository is `src/leidenalg/Optimiser.cpp`;
the partition classes, the graph library and the PRNG are present only as
headers (`ModularityVertexPartition.h`, `CPMVertexPartition.h`,
`SignificanceVertexPartition.h`).  The optimiser routines below are
translated from `Optimiser.cpp`; the partition layer they call into is
modelled from the specification (each such definition is marked
`Modelled from the spec:` in its doc comment).  Rational numbers stand in
for the C++ `double`s, so all arithmetic is exact.
-/

/-- Modelled from the spec: the GraphOracle (spec section 3 and 6).  The
underlying graph library is not under `src/`.  A graph is a vertex count, a
list of weighted undirected edges `(u, v, w)` (parallel edges contribute
additively, which represents an arbitrary weight function), and per-vertex
node weights `nw(v)` used for `csize`. -/
structure Graph where
  n : Nat
  edges : List (Nat × Nat × ℚ)
  node_weights : List ℚ
deriving DecidableEq

/-- Modelled from the spec: the partition data model (spec section 3): a
membership vector together with the current community-slot count
`n_communities()`.  Community slots may be transiently empty and the count
does not shrink during a move loop (spec section 9 allows lazy recycling);
`MutableVertexPartition.cpp` itself is not under `src/`. -/
structure MutableVertexPartition where
  membership : List Nat
  n_communities : Nat
deriving DecidableEq

/-- Modelled from the spec: the `membership[v]` read.  Out-of-range reads
(impossible on well-formed inputs) default to community 0. -/
def commOf (P : MutableVertexPartition) (v : Nat) : Nat :=
  P.membership.getD v 0

/-- Modelled from the spec: the total edge weight `M` of the graph. -/
def totalWeight (g : Graph) : ℚ :=
  (g.edges.map (fun e => e.2.2)).sum

/-- Modelled from the spec: vertex strength `k(v)`, the summed weight of the
incident edges (a self-loop counts at both endpoints). -/
def strength (g : Graph) (v : Nat) : ℚ :=
  (g.edges.map (fun e =>
    (if e.1 = v then e.2.2 else 0) + (if e.2.1 = v then e.2.2 else 0))).sum

/-- Modelled from the spec: the node weight `nw(v)` (default 1). -/
def nodeWeight (g : Graph) (v : Nat) : ℚ :=
  g.node_weights.getD v 1

/-- Modelled from the spec: `w_in(c)`, the total weight of the edges with
both endpoints in community `c`. -/
def weightInComm (g : Graph) (P : MutableVertexPartition) (c : Nat) : ℚ :=
  (g.edges.map (fun e =>
    if commOf P e.1 = c ∧ commOf P e.2.1 = c then e.2.2 else 0)).sum

/-- Modelled from the spec: `csize(c) = Σ nw(v)` over the members of `c`. -/
def csize (g : Graph) (P : MutableVertexPartition) (c : Nat) : ℚ :=
  ((List.range g.n).map (fun v => if commOf P v = c then nodeWeight g v else 0)).sum

/-- Modelled from the spec: `k(c)`, the summed strength of the members of
community `c`. -/
def commStrength (g : Graph) (P : MutableVertexPartition) (c : Nat) : ℚ :=
  ((List.range g.n).map (fun v => if commOf P v = c then strength g v else 0)).sum

/-- Modelled from the spec: the two quality variants the claims reference
(spec section 3): modularity (γ = 1) and CPM with linear resolution
parameter.  The four remaining variants are treated as black boxes by the
spec itself and are not referenced by any claim. -/
inductive QVariant where
  | modularity : QVariant
  | cpm : ℚ → QVariant
deriving DecidableEq

/-- Modelled from the spec: `quality()` (spec sections 3 and 4.1).
Modularity: `Q = (1/M) Σ_c [w_in(c) − k(c)² / (2M)]` with γ = 1.
CPM: `Q = Σ_c [w_in(c) − γ · csize(c)²]`.
The sum ranges over the `n_communities()` slots; empty slots contribute 0.
In ℚ the division by `M = 0` yields 0, so the empty graph has quality 0
(spec section 8, scenario 1). -/
def quality (qv : QVariant) (g : Graph) (P : MutableVertexPartition) : ℚ :=
  match qv with
  | .modularity =>
      (1 / totalWeight g) *
        ((List.range P.n_communities).map (fun c =>
          weightInComm g P c - commStrength g P c ^ 2 / (2 * totalWeight g))).sum
  | .cpm γ =>
      ((List.range P.n_communities).map (fun c =>
        weightInComm g P c - γ * csize g P c ^ 2)).sum

/-- Modelled from the spec: `move_node(v, c_to)` (spec section 4.1):
reassign `v`; when `c_to = n_communities()` a fresh community slot is
created and the count grows by one. -/
def move_node (P : MutableVertexPartition) (v c : Nat) : MutableVertexPartition :=
  { membership := P.membership.set v c
    n_communities := if c = P.n_communities then P.n_communities + 1 else P.n_communities }

/-- Modelled from the spec: `diff_move(v, c_to)` (spec section 4.1).  The
closed-form bodies of `ModularityVertexPartition::diff_move` and
`CPMVertexPartition::diff_move` are not under `src/` (only the headers
are); the spec defines the function by its contract
`quality_after(move(v, c_to)) − quality_before()`, which is the model used
here for every variant. -/
def diff_move (qv : QVariant) (g : Graph) (P : MutableVertexPartition) (v c : Nat) : ℚ :=
  quality qv g (move_node P v c) - quality qv g P

/-- Helper for the adjacency model: the neighbours contributed by an edge
list, in presentation order. -/
def neighAux (v : Nat) (es : List (Nat × Nat × ℚ)) : List Nat :=
  es.foldr (fun e acc =>
    (if e.1 = v then [e.2.1] else []) ++ ((if e.2.1 = v then [e.1] else []) ++ acc)) []

/-- Modelled from the spec: the neighbours of `v` (GraphOracle adjacency),
in the order the edge list presents them. -/
def neighborsOf (g : Graph) (v : Nat) : List Nat :=
  neighAux v g.edges

/-- First-occurrence deduplication, used to enumerate each neighbour
community exactly once (spec section 4.1 requires each at least once). -/
def dedupFirst (l : List Nat) : List Nat :=
  l.foldl (fun acc x => if x ∈ acc then acc else acc ++ [x]) []

/-- Modelled from the spec: `get_neigh_comm_weights(v, c_from)` (spec
section 4.1), restricted to the community list, which is all
`Optimiser.cpp` ever reads from it (the weight vector it also fills is
never consumed there).  The model excludes `c_from`; the spec allows
either choice, and a candidate equal to `c_from` can never be selected
since `diff_move(v, c_from) = 0` beats no positive threshold. -/
def neigh_comms (g : Graph) (P : MutableVertexPartition) (v cfrom : Nat) : List Nat :=
  dedupFirst (((neighborsOf g v).map (commOf P)).filter (fun c => c ≠ cfrom))

/-- The `consider_comms` values of spec section 4.2, referenced as integer
constants in `Optimiser.cpp`. -/
inductive ConsiderComms where
  | allNeighComms : ConsiderComms
  | allComms : ConsiderComms
  | randNeighComm : ConsiderComms
  | randComm : ConsiderComms
deriving DecidableEq

/-- The `optimise_routine` / `refine_routine` values of spec section 6. -/
inductive OptRoutine where
  | moveNodes : OptRoutine
  | mergeNodes : OptRoutine
deriving DecidableEq

/-- The optimiser configuration fields read (as `this->…`) by
`Optimiser.cpp`.  The PRNG (`random.h`) is not under `src/`; per spec
section 4.2 its only optimiser-side use is the per-pass visit
permutation, so shuffles are supplied to the routines as explicit
permutation streams instead of a seed. -/
structure Optimiser where
  consider_comms : ConsiderComms
  consider_empty_community : Bool
  optimise_routine : OptRoutine
  refine_routine : OptRoutine
  refine_partition : Bool
deriving DecidableEq

/-- The candidate scan of `Optimiser.cpp` (for example lines 44 to 54):
keep the community with the strictly largest `diff_move` gain seen so
far; ties keep the earlier candidate. -/
def scanStep (qv : QVariant) (g : Graph) (P : MutableVertexPartition) (v : Nat)
    (b : Nat × ℚ) (c : Nat) : Nat × ℚ :=
  if b.2 < diff_move qv g P v c then (c, diff_move qv g P v c) else b

/-- The empty-community consideration shared by all routines
(`Optimiser.cpp` lines 56 to 72, 251 to 267, 349 to 365 and 459 to 475):
when enabled and `n_communities() < N`, score the fresh community index
against the best gain so far. -/
def considerEmptyStep (opt : Optimiser) (qv : QVariant) (g : Graph)
    (P : MutableVertexPartition) (v : Nat) (b : Nat × ℚ) : Nat × ℚ :=
  if opt.consider_empty_community = true ∧ P.n_communities < g.n then
    scanStep qv g P v b P.n_communities
  else b

/-- Per-vertex body of `Optimiser::move_nodes_impl` (`Optimiser.cpp` lines
27 to 79): skip fixed vertices, scan the neighbour communities, then the
optional empty community, and move when a different community won the scan
(guard `comm_to != comm_from`).  Returns the new state and whether a move
was made. -/
def stepImpl (opt : Optimiser) (qv : QVariant) (g : Graph) (fixed : List Bool)
    (P : MutableVertexPartition) (i : Nat) : MutableVertexPartition × Bool :=
  if fixed.getD i false then (P, false) else
    let cfrom := commOf P i
    let b1 := (neigh_comms g P i cfrom).foldl (scanStep qv g P i) (cfrom, 0)
    let b2 := considerEmptyStep opt qv g P i b1
    if b2.1 ≠ cfrom then (move_node P i b2.1, true) else (P, false)

/-- Per-vertex body shared verbatim by the 4-argument
`Optimiser::move_nodes` (`Optimiser.cpp` lines 200 to 274) and the
4-argument `Optimiser::merge_nodes` (lines 408 to 483): branch on the
`consider_comms` argument — only `ALL_NEIGH_COMMS` and `ALL_COMMS` are
handled, `RAND_NEIGH_COMM` and `RAND_COMM` fall through with no
candidates — then the empty community, with move guard
`comm_to != comm_from && max_q_gain > 0`. -/
def step4 (opt : Optimiser) (qv : QVariant) (g : Graph) (cc : ConsiderComms)
    (fixed : List Bool) (P : MutableVertexPartition) (i : Nat) :
    MutableVertexPartition × Bool :=
  if fixed.getD i false then (P, false) else
    let cfrom := commOf P i
    let b1 :=
      if cc = ConsiderComms.allNeighComms then
        (neigh_comms g P i cfrom).foldl (scanStep qv g P i) (cfrom, 0)
      else if cc = ConsiderComms.allComms then
        ((List.range P.n_communities).filter (fun c => c ≠ cfrom)).foldl
          (scanStep qv g P i) (cfrom, 0)
      else (cfrom, 0)
    let b2 := considerEmptyStep opt qv g P i b1
    if b2.1 ≠ cfrom ∧ 0 < b2.2 then (move_node P i b2.1, true) else (P, false)

/-- Per-vertex body of the 2-argument `Optimiser::merge_nodes`
(`Optimiser.cpp` lines 302 to 372): always scan the neighbour
communities; when `this->consider_comms == ALL_COMMS` additionally scan
all community slots; then the empty community; guard
`comm_to != comm_from && max_q_gain > 0`. -/
def mergeStep2 (opt : Optimiser) (qv : QVariant) (g : Graph) (fixed : List Bool)
    (P : MutableVertexPartition) (i : Nat) : MutableVertexPartition × Bool :=
  if fixed.getD i false then (P, false) else
    let cfrom := commOf P i
    let b1 := (neigh_comms g P i cfrom).foldl (scanStep qv g P i) (cfrom, 0)
    let b2 :=
      if opt.consider_comms = ConsiderComms.allComms then
        ((List.range P.n_communities).filter (fun c => c ≠ cfrom)).foldl
          (scanStep qv g P i) b1
      else b1
    let b3 := considerEmptyStep opt qv g P i b2
    if b3.1 ≠ cfrom ∧ 0 < b3.2 then (move_node P i b3.1, true) else (P, false)

/-- One pass over a visit permutation: fold the per-vertex step over the
visit order, tracking whether any move was made (the `improvement` flag of
`Optimiser.cpp`). -/
def runPass (step : MutableVertexPartition → Nat → MutableVertexPartition × Bool)
    (perm : List Nat) (P : MutableVertexPartition) : MutableVertexPartition × Bool :=
  perm.foldl (fun s i => ((step s.1 i).1, s.2 || (step s.1 i).2)) (P, false)

/-- The `while (improvement)` loop shape of `Optimiser.cpp` (lines 17 to
81, 292 to 374 and 400 to 485): run a pass with a fresh permutation and
repeat while the pass moved something.  `fuel` is the shallow embedding of
the loop's termination (each moving pass strictly increases the quality,
which bounds the number of passes over the finite state space; see
`loopPasses_flag` below).  Returns the final partition, the number of
passes run, and whether the loop exited normally — that is, whether the
final pass performed zero moves — rather than by exhausting the fuel. -/
def loopPasses (step : MutableVertexPartition → Nat → MutableVertexPartition × Bool)
    (perms : Nat → List Nat) :
    Nat → Nat → MutableVertexPartition → MutableVertexPartition × Nat × Bool
  | 0, _, P => (P, 0, false)
  | fuel + 1, k, P =>
      if (runPass step (perms k) P).2 then
        let rest := loopPasses step perms fuel (k + 1) (runPass step (perms k) P).1
        (rest.1, rest.2.1 + 1, rest.2.2)
      else ((runPass step (perms k) P).1, 1, true)

/-- Fuel that provably suffices for every move loop on graph `g`: strictly
more than the number of partition states with membership entries and
community count bounded by the vertex count. -/
def bigFuel (g : Graph) : Nat :=
  g.n ^ g.n * (g.n + 1) + 1

/-- `Optimiser::move_nodes_impl` (`Optimiser.cpp` lines 12 to 82): iterate
passes until one performs zero moves. -/
def move_nodes_impl (opt : Optimiser) (qv : QVariant) (g : Graph)
    (perms : Nat → List Nat) (fixed : List Bool) (P : MutableVertexPartition) :
    MutableVertexPartition × Nat × Bool :=
  loopPasses (stepImpl opt qv g fixed) perms (bigFuel g) 0 P

/-- The 2-argument `Optimiser::move_nodes` (`Optimiser.cpp` lines 178 to
183): record the initial quality, run `move_nodes_impl`, and return the
quality delta; the pure embedding also returns the final partition. -/
def move_nodes (opt : Optimiser) (qv : QVariant) (g : Graph)
    (perms : Nat → List Nat) (fixed : List Bool) (P : MutableVertexPartition) :
    ℚ × MutableVertexPartition :=
  (quality qv g (move_nodes_impl opt qv g perms fixed P).1 - quality qv g P,
   (move_nodes_impl opt qv g perms fixed P).1)

/-- The 4-argument `Optimiser::move_nodes` (`Optimiser.cpp` lines 192 to
277): a single pass — there is no `while (improvement)` loop in this
overload — returning the quality delta.  The `renumber_fixed_nodes`
argument is accepted and, as in the source body, never read. -/
def move_nodes4 (opt : Optimiser) (qv : QVariant) (g : Graph) (cc : ConsiderComms)
    (fixed : List Bool) (rn : Bool) (perm : List Nat) (P : MutableVertexPartition) :
    ℚ × MutableVertexPartition :=
  (quality qv g (runPass (step4 opt qv g cc fixed) perm P).1 - quality qv g P,
   (runPass (step4 opt qv g cc fixed) perm P).1)

/-- The 5-argument `Optimiser::move_nodes` (`Optimiser.cpp` lines 279 to
283): `max_comm_size` is ignored and the 4-argument overload is called. -/
def move_nodes5 (opt : Optimiser) (qv : QVariant) (g : Graph) (cc : ConsiderComms)
    (fixed : List Bool) (rn : Bool) (maxCommSize : Nat) (perm : List Nat)
    (P : MutableVertexPartition) : ℚ × MutableVertexPartition :=
  move_nodes4 opt qv g cc fixed rn perm P

/-- The 2-argument `Optimiser::merge_nodes` (`Optimiser.cpp` lines 286 to
377): the merge loop, returning the quality delta and final partition. -/
def merge_nodes (opt : Optimiser) (qv : QVariant) (g : Graph)
    (perms : Nat → List Nat) (fixed : List Bool) (P : MutableVertexPartition) :
    ℚ × MutableVertexPartition :=
  (quality qv g (loopPasses (mergeStep2 opt qv g fixed) perms (bigFuel g) 0 P).1
     - quality qv g P,
   (loopPasses (mergeStep2 opt qv g fixed) perms (bigFuel g) 0 P).1)

/-- The 4-argument `Optimiser::merge_nodes` (`Optimiser.cpp` lines 394 to
487): same per-vertex body as the 4-argument `move_nodes` but wrapped in
the `while (improvement)` loop. -/
def merge_nodes4 (opt : Optimiser) (qv : QVariant) (g : Graph) (cc : ConsiderComms)
    (fixed : List Bool) (rn : Bool) (perms : Nat → List Nat)
    (P : MutableVertexPartition) : ℚ × MutableVertexPartition :=
  (quality qv g (loopPasses (step4 opt qv g cc fixed) perms (bigFuel g) 0 P).1
     - quality qv g P,
   (loopPasses (step4 opt qv g cc fixed) perms (bigFuel g) 0 P).1)

/-- The 5-argument `Optimiser::merge_nodes` (`Optimiser.cpp` lines 489 to
493): `max_comm_size` is ignored and the 4-argument overload is called. -/
def merge_nodes5 (opt : Optimiser) (qv : QVariant) (g : Graph) (cc : ConsiderComms)
    (fixed : List Bool) (rn : Bool) (maxCommSize : Nat) (perms : Nat → List Nat)
    (P : MutableVertexPartition) : ℚ × MutableVertexPartition :=
  merge_nodes4 opt qv g cc fixed rn perms P

/-- Modelled from the spec: the singleton partition (spec section 6:
default membership when none is given; section 4.3: merge routines operate
on singleton-seeded partitions). -/
def singletonPartition (g : Graph) : MutableVertexPartition :=
  { membership := List.range g.n, n_communities := g.n }

/-- Modelled from the spec: the per-vertex step of the refinement phase's
constrained merge (spec section 4.4): on a singleton-seeded partition `R`,
a vertex may only join communities of vertices that share its community in
the unrefined partition `P`. -/
def refineStep (qv : QVariant) (g : Graph) (P R : MutableVertexPartition)
    (i : Nat) : MutableVertexPartition × Bool :=
  let cfrom := commOf R i
  let cands := dedupFirst ((((neighborsOf g i).filter
      (fun u => commOf P u = commOf P i)).map (commOf R)).filter (fun c => c ≠ cfrom))
  let b := cands.foldl (scanStep qv g R i) (cfrom, 0)
  if b.1 ≠ cfrom ∧ 0 < b.2 then (move_node R i b.1, true) else (R, false)

/-- Modelled from the spec: the aggregation step (spec section 4.4), since
`MutableVertexPartition::aggregate` is not under `src/`.  Builds the
quotient graph of the (optionally refined) partition — each edge is mapped
to its community pair, so weights between community pairs sum — with the
coarse node weights given by `csize`, and seeds the coarse partition so
that quality is preserved: without refinement every coarse vertex starts
in its own community; with refinement, super-nodes that refined the same
community of `P` start in that community of `P`. -/
def aggregate (opt : Optimiser) (qv : QVariant) (perms : Nat → List Nat)
    (g : Graph) (fixed : List Bool) (P : MutableVertexPartition) :
    Graph × MutableVertexPartition :=
  let R := if opt.refine_partition then
      (loopPasses
        (fun R i => if fixed.getD i false then (R, false) else refineStep qv g P R i)
        perms (bigFuel g) 0 (singletonPartition g)).1
    else P
  let gq : Graph :=
    { n := R.n_communities
      edges := g.edges.map (fun e => (commOf R e.1, commOf R e.2.1, e.2.2))
      node_weights := (List.range R.n_communities).map (fun c => csize g R c) }
  let mem := if opt.refine_partition then
      (List.range R.n_communities).map (fun r =>
        (((List.range g.n).find? (fun v => commOf R v = r)).map (commOf P)).getD r)
    else List.range R.n_communities
  (gq, { membership := mem
         n_communities := if opt.refine_partition then P.n_communities else R.n_communities })

/-- The routine dispatch in `Optimiser::optimise_partition`
(`Optimiser.cpp` lines 97 to 101 and 109 to 112): `MOVE_NODES` calls the
2-argument `move_nodes`, `MERGE_NODES` the 2-argument `merge_nodes`. -/
def routine_call (opt : Optimiser) (qv : QVariant) (g : Graph)
    (perms : Nat → List Nat) (fixed : List Bool) (P : MutableVertexPartition) :
    ℚ × MutableVertexPartition :=
  match opt.optimise_routine with
  | .moveNodes => move_nodes opt qv g perms fixed P
  | .mergeNodes => merge_nodes opt qv g perms fixed P

/-- Result of the driver loop: the current level's graph and partition,
the number of routine calls the loop made, and the final
`was_improvement` value. -/
structure LoopOut where
  g : Graph
  p : MutableVertexPartition
  calls : Nat
  lastImp : Bool
deriving DecidableEq

/-- One iteration body of the driver loops: run the configured routine on
the current level; on improvement (`Δquality > 0`) aggregate, otherwise
keep the level.  Returns the improvement flag and the next level.
Stream index `t` feeds the routine, `t + 1` the refinement inside
aggregation. -/
def driver_iter (opt : Optimiser) (qv : QVariant) (perms : Nat → Nat → List Nat)
    (fixed : List Bool) (t : Nat) (G : Graph) (P : MutableVertexPartition) :
    Bool × Graph × MutableVertexPartition :=
  let r := routine_call opt qv G (perms t) fixed P
  let imp := decide ((0 : ℚ) < r.1)
  let next := if imp then aggregate opt qv (perms (t + 1)) G fixed r.2 else (G, r.2)
  (imp, next.1, next.2)

/-- The `while (was_improvement && (n_iterations < 0 || i < n_iterations))`
loop of `Optimiser::optimise_partition` (`Optimiser.cpp` lines 106 to
117), acting on the current (aggregated) level.  `fuel` is the shallow
embedding of the unbounded `n_iterations < 0` case; `t` indexes the
permutation streams consumed by the routine and refinement calls. -/
def optimiser_loop (opt : Optimiser) (qv : QVariant)
    (perms : Nat → Nat → List Nat) (fixed : List Bool) (nIter : Int) :
    Nat → Nat → Nat → Bool → Graph → MutableVertexPartition → LoopOut
  | 0, _, _, wasImp, G, P => ⟨G, P, 0, wasImp⟩
  | fuel + 1, i, t, wasImp, G, P =>
      if wasImp = true ∧ (nIter < 0 ∨ (i : Int) < nIter) then
        let s := driver_iter opt qv perms fixed t G P
        let rest := optimiser_loop opt qv perms fixed nIter fuel (i + 1) (t + 2)
          s.1 s.2.1 s.2.2
        ⟨rest.g, rest.p, rest.calls + 1, rest.lastImp⟩
      else ⟨G, P, 0, wasImp⟩

/-- Result of `optimise_partition`: `base` is the final state of the
caller's partition object, `finalGraph`/`finalPartition` the last
aggregated level the local pointer reached, `calls` the number of routine
calls, `lastImp` the final `was_improvement`, and `ret` the value handed
back to the caller — `none`, because the C++ function returns `void`. -/
structure OptResult where
  base : MutableVertexPartition
  finalGraph : Graph
  finalPartition : MutableVertexPartition
  calls : Nat
  lastImp : Bool
  ret : Option ℚ
deriving DecidableEq

/-- `Optimiser::optimise_partition` (`Optimiser.cpp` lines 90 to 118): one
unconditional routine call, aggregation on improvement (`driver_iter 0`),
then the bounded loop starting at `i = 1`.  The function returns `void`
(`ret = none`).  The caller's partition object is mutated only by that
first routine call: after `partition = partition->aggregate(...)` the
local pointer moves to fresh aggregated objects and nothing is ever
copied back to the argument. -/
def optimise_partition (opt : Optimiser) (qv : QVariant)
    (perms : Nat → Nat → List Nat) (nIter : Int) (fuel : Nat) (g : Graph)
    (fixed : List Bool) (P : MutableVertexPartition) : OptResult :=
  let r0 := routine_call opt qv g (perms 0) fixed P
  let s0 := driver_iter opt qv perms fixed 0 g P
  let rest := optimiser_loop opt qv perms fixed nIter fuel 1 2 s0.1 s0.2.1 s0.2.2
  ⟨r0.2, rest.g, rest.p, rest.calls + 1, rest.lastImp, none⟩

/-- Modelled from the spec: `copy_from_graph`, used by the hierarchical
driver to snapshot each coarse level onto the previous level's graph
(`MutableVertexPartition::copy_from_graph` is not under `src/`): the
composed membership `v ↦ coarse.membership[prev.membership[v]]`, following
spec section 4.4 (base membership is recovered by composing the chain of
membership maps). -/
def copy_from_graph (coarse : MutableVertexPartition) (prevG : Graph)
    (prevP : MutableVertexPartition) : MutableVertexPartition :=
  { membership :=
      (List.range prevG.n).map (fun v => coarse.membership.getD (commOf prevP v) 0)
    n_communities := coarse.n_communities }

/-- A default hierarchy level, used only as the `getD` fallback when
destructuring lists that are proved non-empty. -/
def defaultLevel : Graph × MutableVertexPartition :=
  (⟨0, [], []⟩, ⟨[], 0⟩)

/-- State of the hierarchical driver: `parts` models the caller's
`partitions` vector (slot 0 tracks the current level, mirroring the
aliasing of `partitions[0]` in the source) and `hierarchy` the snapshot
list. -/
structure HierOut where
  parts : List (Graph × MutableVertexPartition)
  hierarchy : List (Graph × MutableVertexPartition)
deriving DecidableEq

/-- The `while (was_improvement)` loop of
`Optimiser::optimise_partition_hierarchical` (`Optimiser.cpp` lines 151
to 167): run the routine; on improvement aggregate, update
`partitions[0]` and push a snapshot of the new level composed onto the
previous graph. -/
def hier_loop (opt : Optimiser) (qv : QVariant) (perms : Nat → Nat → List Nat)
    (fixed : List Bool) :
    Nat → Nat → Bool → Graph → MutableVertexPartition → HierOut → HierOut
  | 0, _, _, _, _, acc => acc
  | fuel + 1, t, wasImp, G, P, acc =>
      if wasImp = true then
        let r := routine_call opt qv G (perms t) fixed P
        if (0 : ℚ) < r.1 then
          let a := aggregate opt qv (perms (t + 1)) G fixed r.2
          hier_loop opt qv perms fixed fuel (t + 2) true a.1 a.2
            ⟨acc.parts.set 0 (a.1, a.2), acc.hierarchy ++ [(G, copy_from_graph a.2 G r.2)]⟩
        else
          hier_loop opt qv perms fixed fuel (t + 2) false G r.2
            ⟨acc.parts.set 0 (G, r.2), acc.hierarchy⟩
      else acc

/-- `Optimiser::optimise_partition_hierarchical` (`Optimiser.cpp` lines
120 to 175).  The length check precedes every mutation, so on the
mismatch error the hierarchy and partitions are returned untouched (the
C++ `throw std::runtime_error` comes before `hierarchy.clear()`); the
spec's error taxonomy files this under InvalidArgument.  Otherwise the
hierarchy is cleared, a copy of the initial partition is pushed, the
optimise-aggregate loop runs, and the returned value is
`hierarchy.back()->quality()`.  Only `partitions[0]` is ever read, as in
the source. -/
def optimise_partition_hierarchical (opt : Optimiser) (qv : QVariant)
    (perms : Nat → Nat → List Nat) (fuel : Nat)
    (partitions : List (Graph × MutableVertexPartition)) (layerWeights : List ℚ)
    (fixed : List Bool) (hierarchy : List (Graph × MutableVertexPartition)) :
    Option String × HierOut × ℚ :=
  if partitions.length ≠ layerWeights.length then
    (some "Partitions and layer_weights should be of same size.",
     ⟨partitions, hierarchy⟩, 0)
  else
    let g0 := (partitions.headD defaultLevel).1
    let P0 := (partitions.headD defaultLevel).2
    let r0 := routine_call opt qv g0 (perms 0) fixed P0
    let st : Bool × Graph × MutableVertexPartition × HierOut :=
      if (0 : ℚ) < r0.1 then
        let a := aggregate opt qv (perms 1) g0 fixed r0.2
        (true, a.1, a.2,
         ⟨partitions.set 0 (a.1, a.2), [(g0, P0), (g0, copy_from_graph a.2 g0 r0.2)]⟩)
      else
        (false, g0, r0.2, ⟨partitions.set 0 (g0, r0.2), [(g0, P0)]⟩)
    let out := hier_loop opt qv perms fixed fuel 2 st.1 st.2.1 st.2.2.1 st.2.2.2
    (none, out,
     match out.hierarchy.getLast? with
     | some e => quality qv e.1 e.2
     | none => 0)

/-- Well-formed graph: every edge endpoint is a vertex. -/
def GraphWF (g : Graph) : Prop :=
  ∀ e ∈ g.edges, e.1 < g.n ∧ e.2.1 < g.n

/-- Well-formed partition over `g`: membership has one entry per vertex,
each entry names an existing community slot, and the slot count is at most
the vertex count (spec section 3: `C ≤ N` at all times). -/
def PWF (g : Graph) (P : MutableVertexPartition) : Prop :=
  P.membership.length = g.n ∧ P.n_communities ≤ g.n ∧
    ∀ x ∈ P.membership, x < P.n_communities

instance (g : Graph) : Decidable (GraphWF g) := by
  unfold GraphWF; infer_instance

instance (g : Graph) (P : MutableVertexPartition) : Decidable (PWF g P) := by
  unfold PWF; infer_instance

/-- The empty graph (`N = 0`), spec section 8 scenario 1. -/
def exEmptyG : Graph := ⟨0, [], []⟩

/-- The empty partition over the empty graph. -/
def exEmptyP : MutableVertexPartition := ⟨[], 0⟩

/-- Example graph: two vertices joined by a unit edge. -/
def exG2 : Graph := ⟨2, [(0, 1, 1)], [1, 1]⟩

/-- Singleton partition on `exG2`. -/
def exP2 : MutableVertexPartition := ⟨[0, 1], 2⟩

/-- No vertex fixed on `exG2`. -/
def exFixed2 : List Bool := [false, false]

/-- Example graph: path 0 — 1 — 2 with edge weights 4 and 10. -/
def exG3 : Graph := ⟨3, [(0, 1, 4), (1, 2, 10)], [1, 1, 1]⟩

/-- Partition `{0, 1} {2}` on `exG3`. -/
def exP3 : MutableVertexPartition := ⟨[0, 0, 1], 2⟩

/-- No vertex fixed on `exG3`. -/
def exFixed3 : List Bool := [false, false, false]

/-- Example graph: the triangle K3 with unit weights. -/
def exK3 : Graph := ⟨3, [(0, 1, 1), (1, 2, 1), (0, 2, 1)], [1, 1, 1]⟩

/-- Singleton partition on `exK3`. -/
def exK3P : MutableVertexPartition := ⟨[0, 1, 2], 3⟩

/-- All three vertices fixed, spec section 8 scenario 5. -/
def exFixedAll3 : List Bool := [true, true, true]

/-- A default optimiser configuration for concrete runs:
`ALL_NEIGH_COMMS`, no empty-community moves, `MOVE_NODES` everywhere, no
refinement. -/
def exOpt : Optimiser :=
  ⟨ConsiderComms.allNeighComms, false, OptRoutine.moveNodes, OptRoutine.moveNodes, false⟩

/-- A constant single-pass permutation stream. -/
def constPerms (p : List Nat) : Nat → List Nat := fun _ => p

/-- A constant permutation stream for the drivers. -/
def constPerms2 (p : List Nat) : Nat → Nat → List Nat := fun _ _ => p

/-- The candidate communities the 4-argument routines of `Optimiser.cpp`
actually score for a vertex `i` with current community `cfrom` (claim C4
as amended): every distinct neighbour community for `ALL_NEIGH_COMMS`,
every community index below `n_communities()` other than the current one
for `ALL_COMMS`, and no community at all for `RAND_NEIGH_COMM` and
`RAND_COMM`, which the source leaves unhandled. -/
def scored_comms (g : Graph) (P : MutableVertexPartition) (cc : ConsiderComms)
    (i cfrom : Nat) : List Nat :=
  match cc with
  | .allNeighComms => neigh_comms g P i cfrom
  | .allComms => (List.range P.n_communities).filter (fun c => c ≠ cfrom)
  | .randNeighComm => []
  | .randComm => []

/-- Invariant of the candidate scan: the best pair is either the untouched
seed `(c_from, 0)` or a candidate with a strictly positive gain that
equals its `diff_move`. -/
def ScanPred (qv : QVariant) (g : Graph) (P : MutableVertexPartition) (v cfrom : Nat)
    (b : Nat × ℚ) : Prop :=
  (b.1 = cfrom ∧ b.2 = 0) ∨ (0 < b.2 ∧ b.2 = diff_move qv g P v b.1)

/-- Outcome characterisation of a per-vertex step: either it leaves the
state untouched, or it moves the visited vertex to a community with a
strictly positive gain that is an existing slot or the guarded fresh
slot. -/
def StepOk (qv : QVariant) (g : Graph)
    (step : MutableVertexPartition → Nat → MutableVertexPartition × Bool) : Prop :=
  ∀ P, PWF g P → ∀ i,
    step P i = (P, false) ∨
    ∃ c, 0 < diff_move qv g P i c ∧
      (c < P.n_communities ∨ (c = P.n_communities ∧ P.n_communities < g.n)) ∧
      step P i = (move_node P i c, true)

/-- The finite space of partition states on `n` vertices: membership lists
of length `n` with entries below `n` and a community count of at most
`n`. -/
def stateFinset (n : Nat) : Finset MutableVertexPartition :=
  Finset.image
    (fun fc : (Fin n → Fin n) × Nat => ⟨(List.ofFn fc.1).map Fin.val, fc.2⟩)
    (Finset.univ ×ˢ Finset.range (n + 1))

/-- Termination measure for the move loops: how many states of the space
still have a strictly larger quality. -/
def mu (qv : QVariant) (g : Graph) (P : MutableVertexPartition) : Nat :=
  ((stateFinset g.n).filter (fun s => quality qv g P < quality qv g s)).card

/-- Folding preserves any invariant preserved by each step. -/
theorem foldl_inv {α β : Type _} (f : β → α → β) (Inv : β → Prop)
    (hf : ∀ b a, Inv b → Inv (f b a)) :
    ∀ (l : List α) (b : β), Inv b → Inv (l.foldl f b) := by
  intro l
  induction l with
  | nil => intro b hb; exact hb
  | cons a l ih =>
      intro b hb
      rw [List.foldl_cons]
      exact ih (f b a) (hf b a hb)


/-- `scanStep` preserves the scan invariant. -/
theorem scanStep_pred (qv : QVariant) (g : Graph) (P : MutableVertexPartition)
    (v cfrom : Nat) (b : Nat × ℚ) (c : Nat) (hb : ScanPred qv g P v cfrom b) :
    ScanPred qv g P v cfrom (scanStep qv g P v b c) := by
  unfold scanStep
  by_cases h : b.2 < diff_move qv g P v c
  · rw [if_pos h]
    right
    refine ⟨?_, rfl⟩
    rcases hb with ⟨_, h0⟩ | ⟨hpos, _⟩
    · rw [h0] at h; exact h
    · exact lt_trans hpos h
  · rw [if_neg h]; exact hb

/-- The scan fold preserves the scan invariant. -/
theorem scan_fold_pred (qv : QVariant) (g : Graph) (P : MutableVertexPartition)
    (v cfrom : Nat) (cands : List Nat) (b : Nat × ℚ)
    (hb : ScanPred qv g P v cfrom b) :
    ScanPred qv g P v cfrom (cands.foldl (scanStep qv g P v) b) :=
  foldl_inv _ _ (fun b c hb => scanStep_pred qv g P v cfrom b c hb) cands b hb

/-- The scan fold selects the seed or one of the scanned candidates. -/
theorem scan_fold_mem (qv : QVariant) (g : Graph) (P : MutableVertexPartition)
    (v : Nat) :
    ∀ (cands : List Nat) (b : Nat × ℚ),
      (cands.foldl (scanStep qv g P v) b).1 = b.1 ∨
        (cands.foldl (scanStep qv g P v) b).1 ∈ cands := by
  intro cands
  induction cands with
  | nil => intro b; left; rfl
  | cons c cs ih =>
      intro b
      rw [List.foldl_cons]
      rcases ih (scanStep qv g P v b c) with h | h
      · rw [h]
        unfold scanStep
        by_cases hc : b.2 < diff_move qv g P v c
        · rw [if_pos hc]; right; exact List.mem_cons_self c cs
        · rw [if_neg hc]; left; rfl
      · right; exact List.mem_cons_of_mem c h

/-- The empty-community consideration preserves the scan invariant. -/
theorem considerEmptyStep_pred (opt : Optimiser) (qv : QVariant) (g : Graph)
    (P : MutableVertexPartition) (v cfrom : Nat) (b : Nat × ℚ)
    (hb : ScanPred qv g P v cfrom b) :
    ScanPred qv g P v cfrom (considerEmptyStep opt qv g P v b) := by
  unfold considerEmptyStep
  split
  · exact scanStep_pred qv g P v cfrom b P.n_communities hb
  · exact hb

/-- The empty-community consideration leaves the best pair unchanged or
selects the fresh slot, the latter only under the `C < N` guard. -/
theorem considerEmptyStep_cases (opt : Optimiser) (qv : QVariant) (g : Graph)
    (P : MutableVertexPartition) (v : Nat) (b : Nat × ℚ) :
    considerEmptyStep opt qv g P v b = b ∨
      ((considerEmptyStep opt qv g P v b).1 = P.n_communities ∧
        P.n_communities < g.n) := by
  unfold considerEmptyStep
  split
  case isTrue h =>
    unfold scanStep
    by_cases hc : b.2 < diff_move qv g P v P.n_communities
    · rw [if_pos hc]; right; exact ⟨rfl, h.2⟩
    · rw [if_neg hc]; left; rfl
  case isFalse h => left; rfl

/-- Reading inside the list gives a member. -/
theorem getD_mem_of_lt {α : Type _} {l : List α} {n : Nat} {d : α}
    (h : n < l.length) : l.getD n d ∈ l := by
  rw [List.getD_eq_getElem?_getD, List.getElem?_eq_getElem h]
  exact List.getElem_mem h

/-- Unfolding equation for the adjacency fold. -/
theorem neighAux_cons (v : Nat) (e : Nat × Nat × ℚ) (es : List (Nat × Nat × ℚ)) :
    neighAux v (e :: es) =
      (if e.1 = v then [e.2.1] else []) ++
        ((if e.2.1 = v then [e.1] else []) ++ neighAux v es) := rfl

/-- Every reported neighbour comes from an edge of the list. -/
theorem mem_neighAux {v u : Nat} :
    ∀ {es : List (Nat × Nat × ℚ)}, u ∈ neighAux v es →
      ∃ e ∈ es, u = e.2.1 ∨ u = e.1 := by
  intro es
  induction es with
  | nil => intro h; simp [neighAux] at h
  | cons e es ih =>
      intro h
      rw [neighAux_cons] at h
      rcases List.mem_append.1 h with h1 | h2
      · refine ⟨e, List.mem_cons_self e es, ?_⟩
        by_cases he : e.1 = v
        · rw [if_pos he] at h1; left; simpa using h1
        · rw [if_neg he] at h1; simp at h1
      · rcases List.mem_append.1 h2 with h3 | h4
        · refine ⟨e, List.mem_cons_self e es, ?_⟩
          by_cases he : e.2.1 = v
          · rw [if_pos he] at h3; right; simpa using h3
          · rw [if_neg he] at h3; simp at h3
        · obtain ⟨f, hf, hu⟩ := ih h4
          exact ⟨f, List.mem_cons_of_mem e hf, hu⟩

/-- Deduplication introduces no new elements. -/
theorem dedupFirst_aux {x : Nat} :
    ∀ (l acc : List Nat),
      x ∈ l.foldl (fun acc y => if y ∈ acc then acc else acc ++ [y]) acc →
      x ∈ acc ∨ x ∈ l := by
  intro l
  induction l with
  | nil => intro acc h; left; exact h
  | cons y ys ih =>
      intro acc h
      rw [List.foldl_cons] at h
      rcases ih _ h with h1 | h1
      · by_cases hy : y ∈ acc
        · rw [if_pos hy] at h1; left; exact h1
        · rw [if_neg hy] at h1
          rcases List.mem_append.1 h1 with h2 | h2
          · left; exact h2
          · right; simp only [List.mem_singleton] at h2
            rw [h2]; exact List.mem_cons_self y ys
      · right; exact List.mem_cons_of_mem y h1

/-- Deduplicated membership implies original membership. -/
theorem dedupFirst_sub {x : Nat} {l : List Nat} (h : x ∈ dedupFirst l) : x ∈ l := by
  rcases dedupFirst_aux l [] h with h1 | h1
  · simp at h1
  · exact h1

/-- On a well-formed graph and partition, every neighbour community names
an existing community slot. -/
theorem neigh_comms_lt (g : Graph) (P : MutableVertexPartition) (v cfrom : Nat)
    (hg : GraphWF g) (hP : PWF g P) :
    ∀ c ∈ neigh_comms g P v cfrom, c < P.n_communities := by
  intro c hc
  unfold neigh_comms at hc
  have hc2 : c ∈ ((neighborsOf g v).map (commOf P)).filter (fun c => c ≠ cfrom) :=
    dedupFirst_sub hc
  have hc3 : c ∈ (neighborsOf g v).map (commOf P) := List.mem_of_mem_filter hc2
  obtain ⟨u, hu, rfl⟩ := List.mem_map.1 hc3
  obtain ⟨e, he, hue⟩ := mem_neighAux hu
  have hun : u < g.n := by
    rcases hue with h | h
    · rw [h]; exact (hg e he).2
    · rw [h]; exact (hg e he).1
  have hmem : commOf P u ∈ P.membership := by
    unfold commOf
    exact getD_mem_of_lt (by rw [hP.1]; exact hun)
  exact hP.2.2 _ hmem

/-- Moving a vertex changes the quality by exactly `diff_move`. -/
theorem quality_move_node (qv : QVariant) (g : Graph) (P : MutableVertexPartition)
    (v c : Nat) :
    quality qv g (move_node P v c) = quality qv g P + diff_move qv g P v c := by
  unfold diff_move; ring

/-- Moving vertex `v` does not touch the membership of any other index. -/
theorem move_node_getD_ne (P : MutableVertexPartition) (v c j d : Nat)
    (h : v ≠ j) :
    (move_node P v c).membership.getD j d = P.membership.getD j d := by
  show (P.membership.set v c).getD j d = P.membership.getD j d
  rw [List.getD_eq_getElem?_getD, List.getD_eq_getElem?_getD,
    List.getElem?_set_ne h]

/-- A move to an existing slot or to the guarded fresh slot preserves
partition well-formedness. -/
theorem move_node_wf (g : Graph) (P : MutableVertexPartition) (v c : Nat)
    (hP : PWF g P)
    (hc : c < P.n_communities ∨ (c = P.n_communities ∧ P.n_communities < g.n)) :
    PWF g (move_node P v c) := by
  obtain ⟨h1, h2, h3⟩ := hP
  have hlen : (move_node P v c).membership.length = g.n := by
    show (P.membership.set v c).length = g.n
    rw [List.length_set, h1]
  rcases hc with hc | ⟨hc, hcn⟩
  · have hne : ¬ c = P.n_communities := Nat.ne_of_lt hc
    have hcomm : (move_node P v c).n_communities = P.n_communities := by
      show (if c = P.n_communities then P.n_communities + 1 else P.n_communities)
        = P.n_communities
      rw [if_neg hne]
    refine ⟨hlen, by rw [hcomm]; exact h2, ?_⟩
    intro x hx
    rw [hcomm]
    rcases List.mem_or_eq_of_mem_set hx with h | h
    · exact h3 x h
    · rw [h]; exact hc
  · have hcomm : (move_node P v c).n_communities = P.n_communities + 1 := by
      show (if c = P.n_communities then P.n_communities + 1 else P.n_communities)
        = P.n_communities + 1
      rw [if_pos hc]
    refine ⟨hlen, by rw [hcomm]; exact hcn, ?_⟩
    intro x hx
    rw [hcomm]
    rcases List.mem_or_eq_of_mem_set hx with h | h
    · exact Nat.lt_succ_of_lt (h3 x h)
    · rw [h, hc]; exact Nat.lt_succ_self _


/-- The common tail of the 4-argument and merge step bodies (guard
`comm_to != comm_from && max_q_gain > 0`), characterised. -/
theorem tailB_cases (opt : Optimiser) (qv : QVariant) (g : Graph)
    (P : MutableVertexPartition) (i : Nat) (b1 : Nat × ℚ)
    (hpred : ScanPred qv g P i (commOf P i) b1)
    (hcand : b1.1 = commOf P i ∨ b1.1 < P.n_communities) :
    (if (considerEmptyStep opt qv g P i b1).1 ≠ commOf P i ∧
        0 < (considerEmptyStep opt qv g P i b1).2
      then (move_node P i (considerEmptyStep opt qv g P i b1).1, true)
      else (P, false)) = (P, false) ∨
    ∃ c, 0 < diff_move qv g P i c ∧
      (c < P.n_communities ∨ (c = P.n_communities ∧ P.n_communities < g.n)) ∧
      (if (considerEmptyStep opt qv g P i b1).1 ≠ commOf P i ∧
          0 < (considerEmptyStep opt qv g P i b1).2
        then (move_node P i (considerEmptyStep opt qv g P i b1).1, true)
        else (P, false)) = (move_node P i c, true) := by
  have hpred2 := considerEmptyStep_pred opt qv g P i (commOf P i) b1 hpred
  rcases considerEmptyStep_cases opt qv g P i b1 with hce | hce
  · rw [hce]
    by_cases hg1 : b1.1 ≠ commOf P i ∧ 0 < b1.2
    · rw [if_pos hg1]
      right
      refine ⟨b1.1, ?_, ?_, rfl⟩
      · rcases hpred with ⟨h, _⟩ | ⟨_, heq⟩
        · exact absurd h hg1.1
        · rw [← heq]; exact hg1.2
      · rcases hcand with h | h
        · exact absurd h hg1.1
        · left; exact h
    · rw [if_neg hg1]; left; rfl
  · by_cases hg1 : (considerEmptyStep opt qv g P i b1).1 ≠ commOf P i ∧
        0 < (considerEmptyStep opt qv g P i b1).2
    · rw [if_pos hg1]
      right
      refine ⟨(considerEmptyStep opt qv g P i b1).1, ?_, ?_, rfl⟩
      · rcases hpred2 with ⟨h, _⟩ | ⟨_, heq⟩
        · exact absurd h hg1.1
        · rw [← heq]; exact hg1.2
      · right; exact ⟨hce.1, hce.2⟩
    · rw [if_neg hg1]; left; rfl

/-- The tail of the `move_nodes_impl` step body (guard
`comm_to != comm_from` only), characterised; positivity of the selected
gain follows from the scan invariant. -/
theorem tailA_cases (opt : Optimiser) (qv : QVariant) (g : Graph)
    (P : MutableVertexPartition) (i : Nat) (b1 : Nat × ℚ)
    (hpred : ScanPred qv g P i (commOf P i) b1)
    (hcand : b1.1 = commOf P i ∨ b1.1 < P.n_communities) :
    (if (considerEmptyStep opt qv g P i b1).1 ≠ commOf P i
      then (move_node P i (considerEmptyStep opt qv g P i b1).1, true)
      else (P, false)) = (P, false) ∨
    ∃ c, 0 < diff_move qv g P i c ∧
      (c < P.n_communities ∨ (c = P.n_communities ∧ P.n_communities < g.n)) ∧
      (if (considerEmptyStep opt qv g P i b1).1 ≠ commOf P i
        then (move_node P i (considerEmptyStep opt qv g P i b1).1, true)
        else (P, false)) = (move_node P i c, true) := by
  have hpred2 := considerEmptyStep_pred opt qv g P i (commOf P i) b1 hpred
  rcases considerEmptyStep_cases opt qv g P i b1 with hce | hce
  · rw [hce]
    by_cases hg1 : b1.1 ≠ commOf P i
    · rw [if_pos hg1]
      right
      refine ⟨b1.1, ?_, ?_, rfl⟩
      · rcases hpred with ⟨h, _⟩ | ⟨hpos, heq⟩
        · exact absurd h hg1
        · rw [← heq]; exact hpos
      · rcases hcand with h | h
        · exact absurd h hg1
        · left; exact h
    · rw [if_neg hg1]; left; rfl
  · by_cases hg1 : (considerEmptyStep opt qv g P i b1).1 ≠ commOf P i
    · rw [if_pos hg1]
      right
      refine ⟨(considerEmptyStep opt qv g P i b1).1, ?_, ?_, rfl⟩
      · rcases hpred2 with ⟨h, _⟩ | ⟨hpos, heq⟩
        · exact absurd h hg1
        · rw [← heq]; exact hpos
      · right; exact ⟨hce.1, hce.2⟩
    · rw [if_neg hg1]; left; rfl

/-- The scan seed satisfies the scan invariant. -/
theorem seed_pred (qv : QVariant) (g : Graph) (P : MutableVertexPartition)
    (i cfrom : Nat) : ScanPred qv g P i cfrom (cfrom, 0) :=
  Or.inl ⟨rfl, rfl⟩

/-- Characterisation of the `move_nodes_impl` per-vertex step. -/
theorem stepImpl_cases (opt : Optimiser) (qv : QVariant) (g : Graph)
    (fixed : List Bool) (hg : GraphWF g) :
    StepOk qv g (stepImpl opt qv g fixed) := by
  intro P hP i
  simp only [stepImpl]
  split
  · left; rfl
  · apply tailA_cases
    · exact scan_fold_pred qv g P i (commOf P i) _ _ (seed_pred qv g P i (commOf P i))
    · rcases scan_fold_mem qv g P i (neigh_comms g P i (commOf P i)) (commOf P i, 0)
        with h | h
      · left; exact h
      · right; exact neigh_comms_lt g P i (commOf P i) hg hP _ h

/-- Characterisation of the shared 4-argument per-vertex step. -/
theorem step4_cases (opt : Optimiser) (qv : QVariant) (g : Graph)
    (cc : ConsiderComms) (fixed : List Bool) (hg : GraphWF g) :
    StepOk qv g (step4 opt qv g cc fixed) := by
  intro P hP i
  simp only [step4]
  split
  · left; rfl
  · split
    · apply tailB_cases
      · exact scan_fold_pred qv g P i (commOf P i) _ _ (seed_pred qv g P i (commOf P i))
      · rcases scan_fold_mem qv g P i (neigh_comms g P i (commOf P i)) (commOf P i, 0)
          with h | h
        · left; exact h
        · right; exact neigh_comms_lt g P i (commOf P i) hg hP _ h
    · split
      · apply tailB_cases
        · exact scan_fold_pred qv g P i (commOf P i) _ _ (seed_pred qv g P i (commOf P i))
        · rcases scan_fold_mem qv g P i
            ((List.range P.n_communities).filter (fun c => c ≠ commOf P i))
            (commOf P i, 0) with h | h
          · left; exact h
          · right
            exact List.mem_range.1 (List.mem_of_mem_filter h)
      · apply tailB_cases
        · exact seed_pred qv g P i (commOf P i)
        · left; rfl

/-- Characterisation of the 2-argument `merge_nodes` per-vertex step. -/
theorem mergeStep2_cases (opt : Optimiser) (qv : QVariant) (g : Graph)
    (fixed : List Bool) (hg : GraphWF g) :
    StepOk qv g (mergeStep2 opt qv g fixed) := by
  intro P hP i
  have hb1pred : ScanPred qv g P i (commOf P i)
      ((neigh_comms g P i (commOf P i)).foldl (scanStep qv g P i) (commOf P i, 0)) :=
    scan_fold_pred qv g P i (commOf P i) _ _ (seed_pred qv g P i (commOf P i))
  have hb1mem : ((neigh_comms g P i (commOf P i)).foldl (scanStep qv g P i)
        (commOf P i, 0)).1 = commOf P i ∨
      ((neigh_comms g P i (commOf P i)).foldl (scanStep qv g P i)
        (commOf P i, 0)).1 < P.n_communities := by
    rcases scan_fold_mem qv g P i (neigh_comms g P i (commOf P i)) (commOf P i, 0)
      with h | h
    · left; exact h
    · right; exact neigh_comms_lt g P i (commOf P i) hg hP _ h
  simp only [mergeStep2]
  split
  · left; rfl
  · split
    · apply tailB_cases
      · exact scan_fold_pred qv g P i (commOf P i) _ _ hb1pred
      · rcases scan_fold_mem qv g P i
          ((List.range P.n_communities).filter (fun c => c ≠ commOf P i)) _ with h | h
        · rw [h]
          exact hb1mem
        · right
          exact List.mem_range.1 (List.mem_of_mem_filter h)
    · apply tailB_cases
      · exact hb1pred
      · exact hb1mem


/-- Every bounded state belongs to the state space. -/
theorem mem_stateFinset {n : Nat} {P : MutableVertexPartition}
    (h1 : P.membership.length = n) (h2 : ∀ x ∈ P.membership, x < n)
    (h3 : P.n_communities ≤ n) : P ∈ stateFinset n := by
  unfold stateFinset
  rw [Finset.mem_image]
  refine ⟨(fun i : Fin n =>
      (⟨P.membership.getD i 0,
        h2 _ (getD_mem_of_lt (by rw [h1]; exact i.isLt))⟩ : Fin n),
      P.n_communities), ?_, ?_⟩
  · rw [Finset.mem_product]
    exact ⟨Finset.mem_univ _, Finset.mem_range.2 (Nat.lt_succ_of_le h3)⟩
  · cases P with
  | mk mem nc =>
      simp only at h1 h2 ⊢
      have hlist : (List.ofFn (fun i : Fin n =>
          (⟨mem.getD i 0, h2 _ (getD_mem_of_lt (by rw [h1]; exact i.isLt))⟩ : Fin n))).map
            Fin.val = mem := by
        rw [List.map_ofFn]
        apply List.ext_getElem
        · rw [List.length_ofFn, h1]
        · intro j hj1 hj2
          rw [List.getElem_ofFn]
          show mem.getD j 0 = mem[j]
          rw [List.getD_eq_getElem?_getD, List.getElem?_eq_getElem hj2]
          rfl
      rw [hlist]

/-- Cardinality bound on the state space. -/
theorem stateFinset_card_le (n : Nat) : (stateFinset n).card ≤ n ^ n * (n + 1) := by
  unfold stateFinset
  refine le_trans Finset.card_image_le ?_
  rw [Finset.card_product, Finset.card_range, Finset.card_univ, Fintype.card_fun,
    Fintype.card_fin]

/-- Well-formed partitions live in the state space. -/
theorem PWF_mem_stateFinset {g : Graph} {P : MutableVertexPartition}
    (hP : PWF g P) : P ∈ stateFinset g.n :=
  mem_stateFinset hP.1 (fun x hx => lt_of_lt_of_le (hP.2.2 x hx) hP.2.1) hP.2.1


/-- The measure is bounded by the state-space size. -/
theorem mu_le (qv : QVariant) (g : Graph) (P : MutableVertexPartition) :
    mu qv g P ≤ g.n ^ g.n * (g.n + 1) :=
  le_trans (Finset.card_filter_le _ _) (stateFinset_card_le g.n)

/-- Strict quality increase strictly decreases the measure. -/
theorem mu_lt (qv : QVariant) (g : Graph) {P Q : MutableVertexPartition}
    (hQ : Q ∈ stateFinset g.n) (h : quality qv g P < quality qv g Q) :
    mu qv g Q < mu qv g P := by
  have hsub : (stateFinset g.n).filter (fun s => quality qv g Q < quality qv g s) ⊆
      (stateFinset g.n).filter (fun s => quality qv g P < quality qv g s) := by
    intro x hx
    rcases Finset.mem_filter.1 hx with ⟨hx1, hx2⟩
    exact Finset.mem_filter.2 ⟨hx1, lt_trans h hx2⟩
  refine Finset.card_lt_card ((Finset.ssubset_iff_of_subset hsub).2 ⟨Q, ?_, ?_⟩)
  · exact Finset.mem_filter.2 ⟨hQ, h⟩
  · intro hmem
    exact absurd (Finset.mem_filter.1 hmem).2 (lt_irrefl _)

/-- Facts about one pass: well-formedness is preserved, a moveless pass
leaves the partition untouched, and a moving pass strictly increases the
quality. -/
theorem runPass_main (qv : QVariant) (g : Graph)
    (step : MutableVertexPartition → Nat → MutableVertexPartition × Bool)
    (hstep : StepOk qv g step) (perm : List Nat) (P : MutableVertexPartition)
    (hP : PWF g P) :
    PWF g (runPass step perm P).1 ∧
    ((runPass step perm P).2 = false → (runPass step perm P).1 = P) ∧
    ((runPass step perm P).2 = true →
      quality qv g P < quality qv g (runPass step perm P).1) := by
  have hpres : ∀ (s : MutableVertexPartition × Bool) (i : Nat),
      (fun s : MutableVertexPartition × Bool => PWF g s.1 ∧
        (s.2 = false ∧ s.1 = P ∨
          s.2 = true ∧ quality qv g P < quality qv g s.1)) s →
      (fun s : MutableVertexPartition × Bool => PWF g s.1 ∧
        (s.2 = false ∧ s.1 = P ∨
          s.2 = true ∧ quality qv g P < quality qv g s.1))
        ((step s.1 i).1, s.2 || (step s.1 i).2) := by
    intro s i hs
    obtain ⟨hQ, hdis⟩ := hs
    rcases hstep s.1 hQ i with hcase | ⟨c, hpos, hok, hcase⟩
    · rw [hcase]
      refine ⟨hQ, ?_⟩
      show (s.2 || false) = false ∧ s.1 = P ∨
        (s.2 || false) = true ∧ quality qv g P < quality qv g s.1
      rw [Bool.or_false]
      exact hdis
    · rw [hcase]
      have hq : quality qv g s.1 < quality qv g (move_node s.1 i c) := by
        rw [quality_move_node]; linarith
      refine ⟨move_node_wf g s.1 i c hQ hok, Or.inr ⟨?_, ?_⟩⟩
      · show (s.2 || true) = true
        rw [Bool.or_true]
      · show quality qv g P < quality qv g (move_node s.1 i c)
        rcases hdis with ⟨_, hQP⟩ | ⟨_, hlt⟩
        · rw [← hQP]; exact hq
        · exact lt_trans hlt hq
  have h : PWF g (runPass step perm P).1 ∧
      ((runPass step perm P).2 = false ∧ (runPass step perm P).1 = P ∨
        (runPass step perm P).2 = true ∧
          quality qv g P < quality qv g (runPass step perm P).1) :=
    foldl_inv _
      (fun s : MutableVertexPartition × Bool => PWF g s.1 ∧
        (s.2 = false ∧ s.1 = P ∨
          s.2 = true ∧ quality qv g P < quality qv g s.1))
      hpres perm (P, false) ⟨hP, Or.inl ⟨rfl, rfl⟩⟩
  refine ⟨h.1, ?_, ?_⟩
  · intro hf
    rcases h.2 with ⟨_, h2⟩ | ⟨h2, _⟩
    · exact h2
    · rw [hf] at h2; cases h2
  · intro ht
    rcases h.2 with ⟨h2, _⟩ | ⟨_, h2⟩
    · rw [ht] at h2; cases h2
    · exact h2

/-- With enough fuel — strictly more than the measure — the pass loop
exits normally, that is, its final pass performs zero moves. -/
theorem loopPasses_flag (qv : QVariant) (g : Graph)
    (step : MutableVertexPartition → Nat → MutableVertexPartition × Bool)
    (hstep : StepOk qv g step) (perms : Nat → List Nat) :
    ∀ (fuel k : Nat) (P : MutableVertexPartition), PWF g P →
      mu qv g P < fuel → (loopPasses step perms fuel k P).2.2 = true := by
  intro fuel
  induction fuel with
  | zero => intro k P _ h; exact absurd h (Nat.not_lt_zero _)
  | succ fuel ih =>
      intro k P hP hmu
      have hmain := runPass_main qv g step hstep (perms k) P hP
      simp only [loopPasses]
      by_cases hr : (runPass step (perms k) P).2 = true
      · rw [if_pos hr]
        apply ih (k + 1) _ hmain.1
        have hq := hmain.2.2 hr
        have := mu_lt qv g (PWF_mem_stateFinset hmain.1) hq
        omega
      · rw [if_neg hr]

/-- Well-formedness is preserved by the pass loop. -/
theorem loopPasses_wf (qv : QVariant) (g : Graph)
    (step : MutableVertexPartition → Nat → MutableVertexPartition × Bool)
    (hstep : StepOk qv g step) (perms : Nat → List Nat) :
    ∀ (fuel k : Nat) (P : MutableVertexPartition), PWF g P →
      PWF g (loopPasses step perms fuel k P).1 := by
  intro fuel
  induction fuel with
  | zero => intro k P hP; exact hP
  | succ fuel ih =>
      intro k P hP
      have hmain := runPass_main qv g step hstep (perms k) P hP
      simp only [loopPasses]
      by_cases hr : (runPass step (perms k) P).2 = true
      · rw [if_pos hr]
        exact ih (k + 1) _ hmain.1
      · rw [if_neg hr]
        exact hmain.1

/-- When the pass loop exits normally, its final pass is a fixpoint pass:
it performs zero moves and leaves the result unchanged. -/
theorem loopPasses_last (qv : QVariant) (g : Graph)
    (step : MutableVertexPartition → Nat → MutableVertexPartition × Bool)
    (hstep : StepOk qv g step) (perms : Nat → List Nat) :
    ∀ (fuel k : Nat) (P : MutableVertexPartition), PWF g P →
      (loopPasses step perms fuel k P).2.2 = true →
      runPass step (perms (k + (loopPasses step perms fuel k P).2.1 - 1))
          (loopPasses step perms fuel k P).1
        = ((loopPasses step perms fuel k P).1, false) := by
  intro fuel
  induction fuel with
  | zero => intro k P _ h; cases h
  | succ fuel ih =>
      intro k P hP
      have hmain := runPass_main qv g step hstep (perms k) P hP
      simp only [loopPasses]
      by_cases hr : (runPass step (perms k) P).2 = true
      · rw [if_pos hr]
        intro hflag
        simp only at hflag
        have hidx : k + ((loopPasses step perms fuel (k + 1)
            (runPass step (perms k) P).1).2.1 + 1) - 1 =
            (k + 1) + (loopPasses step perms fuel (k + 1)
              (runPass step (perms k) P).1).2.1 - 1 := by omega
        rw [hidx]
        exact ih (k + 1) _ hmain.1 hflag
      · rw [if_neg hr]
        intro _
        have h1 : (runPass step (perms k) P).1 = P := by
          apply hmain.2.1
          cases hb : (runPass step (perms k) P).2
          · rfl
          · exact absurd hb hr
        have hself : runPass step (perms (k + 1 - 1)) P = (P, false) := by
          have : k + 1 - 1 = k := by omega
          rw [this]
          have h2 : (runPass step (perms k) P).2 = false := by
            cases hb : (runPass step (perms k) P).2
            · rfl
            · exact absurd hb hr
          rw [Prod.ext_iff]
          exact ⟨h1, h2⟩
        simp only
        rw [h1]
        exact hself

/-- A fixed vertex is skipped by the `move_nodes_impl` step. -/
theorem stepImpl_fixed (opt : Optimiser) (qv : QVariant) (g : Graph)
    (fixed : List Bool) (v : Nat) (hv : fixed.getD v false = true) :
    ∀ Q, stepImpl opt qv g fixed Q v = (Q, false) := by
  intro Q
  simp only [stepImpl]
  rw [if_pos hv]

/-- A fixed vertex is skipped by the shared 4-argument step. -/
theorem step4_fixed (opt : Optimiser) (qv : QVariant) (g : Graph)
    (cc : ConsiderComms) (fixed : List Bool) (v : Nat)
    (hv : fixed.getD v false = true) :
    ∀ Q, step4 opt qv g cc fixed Q v = (Q, false) := by
  intro Q
  simp only [step4]
  rw [if_pos hv]

/-- A fixed vertex is skipped by the 2-argument merge step. -/
theorem mergeStep2_fixed (opt : Optimiser) (qv : QVariant) (g : Graph)
    (fixed : List Bool) (v : Nat) (hv : fixed.getD v false = true) :
    ∀ Q, mergeStep2 opt qv g fixed Q v = (Q, false) := by
  intro Q
  simp only [mergeStep2]
  rw [if_pos hv]

/-- Folding a step over vertices that are all different from `v` leaves
the membership of `v` unchanged. -/
theorem fold_getD_not_mem (qv : QVariant) (g : Graph)
    (step : MutableVertexPartition → Nat → MutableVertexPartition × Bool)
    (hstep : StepOk qv g step) (v d : Nat) :
    ∀ (l : List Nat) (s : MutableVertexPartition × Bool), v ∉ l → PWF g s.1 →
      (l.foldl (fun s i => ((step s.1 i).1, s.2 || (step s.1 i).2)) s).1.membership.getD v d
        = s.1.membership.getD v d := by
  intro l
  induction l with
  | nil => intro s _ _; rfl
  | cons i l ih =>
      intro s hv hs
      rw [List.foldl_cons]
      have hiv : i ≠ v := fun h => hv (h ▸ List.mem_cons_self i l)
      rcases hstep s.1 hs i with hcase | ⟨c, _, hok, hcase⟩
      · rw [hcase]
        exact ih _ (fun h => hv (List.mem_cons_of_mem i h)) hs
      · rw [hcase]
        rw [ih _ (fun h => hv (List.mem_cons_of_mem i h)) (move_node_wf g s.1 i c hs hok)]
        exact move_node_getD_ne s.1 i c v d hiv

/-- A pass never changes the membership of a vertex the step skips. -/
theorem runPass_getD_fixed (qv : QVariant) (g : Graph)
    (step : MutableVertexPartition → Nat → MutableVertexPartition × Bool)
    (hstep : StepOk qv g step) (v d : Nat) (hfix : ∀ Q, step Q v = (Q, false)) :
    ∀ (perm : List Nat) (P : MutableVertexPartition), PWF g P →
      (runPass step perm P).1.membership.getD v d = P.membership.getD v d := by
  have hpres : ∀ (P : MutableVertexPartition), PWF g P →
      ∀ (s : MutableVertexPartition × Bool) (i : Nat),
      (fun s : MutableVertexPartition × Bool => PWF g s.1 ∧
        s.1.membership.getD v d = P.membership.getD v d) s →
      (fun s : MutableVertexPartition × Bool => PWF g s.1 ∧
        s.1.membership.getD v d = P.membership.getD v d)
        ((step s.1 i).1, s.2 || (step s.1 i).2) := by
    intro P _ s i hs
    obtain ⟨hwf, hgd⟩ := hs
    by_cases hiv : i = v
    · rw [hiv, hfix s.1]
      exact ⟨hwf, hgd⟩
    · rcases hstep s.1 hwf i with hcase | ⟨c, _, hok, hcase⟩
      · rw [hcase]
        exact ⟨hwf, hgd⟩
      · rw [hcase]
        refine ⟨move_node_wf g s.1 i c hwf hok, ?_⟩
        show (move_node s.1 i c).membership.getD v d = P.membership.getD v d
        rw [move_node_getD_ne s.1 i c v d hiv]
        exact hgd
  intro perm P hP
  exact (foldl_inv _
    (fun s : MutableVertexPartition × Bool => PWF g s.1 ∧
      s.1.membership.getD v d = P.membership.getD v d)
    (hpres P hP) perm (P, false) ⟨hP, rfl⟩).2

/-- The pass loop never changes the membership of a vertex the step
skips. -/
theorem loopPasses_getD_fixed (qv : QVariant) (g : Graph)
    (step : MutableVertexPartition → Nat → MutableVertexPartition × Bool)
    (hstep : StepOk qv g step) (perms : Nat → List Nat) (v d : Nat)
    (hfix : ∀ Q, step Q v = (Q, false)) :
    ∀ (fuel k : Nat) (P : MutableVertexPartition), PWF g P →
      (loopPasses step perms fuel k P).1.membership.getD v d
        = P.membership.getD v d := by
  intro fuel
  induction fuel with
  | zero => intro k P _; rfl
  | succ fuel ih =>
      intro k P hP
      have hmain := runPass_main qv g step hstep (perms k) P hP
      simp only [loopPasses]
      by_cases hr : (runPass step (perms k) P).2 = true
      · rw [if_pos hr]
        show (loopPasses step perms fuel (k + 1)
            (runPass step (perms k) P).1).1.membership.getD v d
          = P.membership.getD v d
        rw [ih (k + 1) _ hmain.1]
        exact runPass_getD_fixed qv g step hstep v d hfix (perms k) P hP
      · rw [if_neg hr]
        exact runPass_getD_fixed qv g step hstep v d hfix (perms k) P hP

/-- When `was_improvement` is false the driver loop exits immediately. -/
theorem optimiser_loop_false (opt : Optimiser) (qv : QVariant)
    (perms : Nat → Nat → List Nat) (fixed : List Bool) (nIter : Int) :
    ∀ (fuel i t : Nat) (G : Graph) (P : MutableVertexPartition),
      optimiser_loop opt qv perms fixed nIter fuel i t false G P = ⟨G, P, 0, false⟩ := by
  intro fuel
  cases fuel with
  | zero => intro i t G P; rfl
  | succ fuel =>
      intro i t G P
      simp only [optimiser_loop]
      rw [if_neg]
      intro h
      exact Bool.false_ne_true h.1

/-- For `n_iterations ≥ 0` the driver loop makes at most
`n_iterations − i` further routine calls. -/
theorem optimiser_loop_calls_le (opt : Optimiser) (qv : QVariant)
    (perms : Nat → Nat → List Nat) (fixed : List Bool) (nIter : Int)
    (h0 : 0 ≤ nIter) :
    ∀ (fuel i t : Nat) (w : Bool) (G : Graph) (P : MutableVertexPartition),
      (optimiser_loop opt qv perms fixed nIter fuel i t w G P).calls ≤
        nIter.toNat - i := by
  intro fuel
  induction fuel with
  | zero => intro i t w G P; exact Nat.zero_le _
  | succ fuel ih =>
      intro i t w G P
      simp only [optimiser_loop]
      by_cases hc : w = true ∧ (nIter < 0 ∨ (i : Int) < nIter)
      · rw [if_pos hc]
        have hi : (i : Int) < nIter := hc.2.resolve_left (by omega)
        have hi2 : i < nIter.toNat := by omega
        have h1 := ih (i + 1) (t + 2)
          (driver_iter opt qv perms fixed t G P).1
          (driver_iter opt qv perms fixed t G P).2.1
          (driver_iter opt qv perms fixed t G P).2.2
        show (optimiser_loop opt qv perms fixed nIter fuel (i + 1) (t + 2)
            (driver_iter opt qv perms fixed t G P).1
            (driver_iter opt qv perms fixed t G P).2.1
            (driver_iter opt qv perms fixed t G P).2.2).calls + 1 ≤ nIter.toNat - i
        omega
      · rw [if_neg hc]
        exact Nat.zero_le _

/-- For `n_iterations ≥ 0` and enough fuel, a loop that never lost
improvement ran exactly up to the iteration bound. -/
theorem optimiser_loop_lastImp_nonneg (opt : Optimiser) (qv : QVariant)
    (perms : Nat → Nat → List Nat) (fixed : List Bool) (nIter : Int)
    (h0 : 0 ≤ nIter) :
    ∀ (fuel i t : Nat) (w : Bool) (G : Graph) (P : MutableVertexPartition),
      nIter.toNat - i ≤ fuel →
      (optimiser_loop opt qv perms fixed nIter fuel i t w G P).lastImp = true →
      (optimiser_loop opt qv perms fixed nIter fuel i t w G P).calls =
        nIter.toNat - i := by
  intro fuel
  induction fuel with
  | zero =>
      intro i t w G P hfuel _
      show 0 = nIter.toNat - i
      omega
  | succ fuel ih =>
      intro i t w G P hfuel hl
      simp only [optimiser_loop] at hl ⊢
      by_cases hc : w = true ∧ (nIter < 0 ∨ (i : Int) < nIter)
      · rw [if_pos hc] at hl ⊢
        have hi : (i : Int) < nIter := hc.2.resolve_left (by omega)
        have hi2 : i < nIter.toNat := by omega
        have hl' : (optimiser_loop opt qv perms fixed nIter fuel (i + 1) (t + 2)
            (driver_iter opt qv perms fixed t G P).1
            (driver_iter opt qv perms fixed t G P).2.1
            (driver_iter opt qv perms fixed t G P).2.2).lastImp = true := hl
        have h2 := ih (i + 1) (t + 2)
          (driver_iter opt qv perms fixed t G P).1
          (driver_iter opt qv perms fixed t G P).2.1
          (driver_iter opt qv perms fixed t G P).2.2 (by omega) hl'
        show (optimiser_loop opt qv perms fixed nIter fuel (i + 1) (t + 2)
            (driver_iter opt qv perms fixed t G P).1
            (driver_iter opt qv perms fixed t G P).2.1
            (driver_iter opt qv perms fixed t G P).2.2).calls + 1 = nIter.toNat - i
        omega
      · rw [if_neg hc] at hl ⊢
        have hw : w = true := hl
        have hni : ¬ (i : Int) < nIter := by
          intro hlt
          exact hc ⟨hw, Or.inr hlt⟩
        show 0 = nIter.toNat - i
        omega

/-- For `n_iterations < 0` only loss of improvement stops the loop: a loop
that still reports improvement consumed all its fuel. -/
theorem optimiser_loop_lastImp_neg (opt : Optimiser) (qv : QVariant)
    (perms : Nat → Nat → List Nat) (fixed : List Bool) (nIter : Int)
    (hn : nIter < 0) :
    ∀ (fuel i t : Nat) (w : Bool) (G : Graph) (P : MutableVertexPartition),
      (optimiser_loop opt qv perms fixed nIter fuel i t w G P).lastImp = true →
      (optimiser_loop opt qv perms fixed nIter fuel i t w G P).calls = fuel := by
  intro fuel
  induction fuel with
  | zero => intro i t w G P _; rfl
  | succ fuel ih =>
      intro i t w G P hl
      simp only [optimiser_loop] at hl ⊢
      by_cases hc : w = true ∧ (nIter < 0 ∨ (i : Int) < nIter)
      · rw [if_pos hc] at hl ⊢
        have hl' : (optimiser_loop opt qv perms fixed nIter fuel (i + 1) (t + 2)
            (driver_iter opt qv perms fixed t G P).1
            (driver_iter opt qv perms fixed t G P).2.1
            (driver_iter opt qv perms fixed t G P).2.2).lastImp = true := hl
        have h2 := ih (i + 1) (t + 2)
          (driver_iter opt qv perms fixed t G P).1
          (driver_iter opt qv perms fixed t G P).2.1
          (driver_iter opt qv perms fixed t G P).2.2 hl'
        show (optimiser_loop opt qv perms fixed nIter fuel (i + 1) (t + 2)
            (driver_iter opt qv perms fixed t G P).1
            (driver_iter opt qv perms fixed t G P).2.1
            (driver_iter opt qv perms fixed t G P).2.2).calls + 1 = fuel + 1
        omega
      · rw [if_neg hc] at hl ⊢
        have hw : w = true := hl
        exact absurd ⟨hw, Or.inl hn⟩ hc

/-- Index-one read on a literal list, stated so it matches any literal
form of the index. -/
theorem getD_cons_one {α : Type _} (a b : α) (l : List α) (d : α) :
    (a :: b :: l).getD 1 d = b := rfl

/-- Index-two read on a literal list. -/
theorem getD_cons_two {α : Type _} (a b c : α) (l : List α) (d : α) :
    (a :: b :: c :: l).getD 2 d = c := rfl

/-- C3: for every quality variant, graph, partition state, vertex `v`,
target community `c` (including the fresh index `n_communities()`) and
positive tolerance ε, `diff_move(v, c)` agrees with the quality change
produced by `move_node(v, c)` within `ε · (1 + |quality|)`; in this exact
rational model the discrepancy is exactly zero, so the floating-point
bound holds for every positive ε. -/
theorem claim3_theorem (qv : QVariant) (g : Graph) (P : MutableVertexPartition)
    (v c : Nat) (eps : ℚ) (heps : 0 < eps) :
    |quality qv g (move_node P v c) - quality qv g P - diff_move qv g P v c| <
      eps * (1 + |quality qv g P|) := by
  have h0 : quality qv g (move_node P v c) - quality qv g P - diff_move qv g P v c
      = 0 := by
    unfold diff_move; ring
  rw [h0, abs_zero]
  have h1 : (0 : ℚ) ≤ |quality qv g P| := abs_nonneg _
  exact mul_pos heps (by linarith)

/-- C3 witness: the diff_move consistency bound at a concrete instance
(modularity on K3, moving vertex 0 into community 1, ε = 10⁻⁹). -/
theorem claim3_witness :
    |quality QVariant.modularity exK3 (move_node exK3P 0 1) -
        quality QVariant.modularity exK3 exK3P -
        diff_move QVariant.modularity exK3 exK3P 0 1| <
      (1 / 1000000000) * (1 + |quality QVariant.modularity exK3 exK3P|) :=
  claim3_theorem QVariant.modularity exK3 exK3P 0 1 (1 / 1000000000) (by norm_num)

/-- C6 (amended): the 5-argument `move_nodes` and `merge_nodes` overloads
ignore their `max_comm_size` argument entirely — the result does not
depend on it and always equals the 4-argument overload — so the size
bound is not enforced by them. -/
theorem claim6_theorem (opt : Optimiser) (qv : QVariant) (g : Graph)
    (cc : ConsiderComms) (fixed : List Bool) (rn : Bool) :
    (∀ (m1 m2 : Nat) (perm : List Nat) (P : MutableVertexPartition),
      move_nodes5 opt qv g cc fixed rn m1 perm P =
        move_nodes5 opt qv g cc fixed rn m2 perm P)
    ∧ (∀ (m : Nat) (perm : List Nat) (P : MutableVertexPartition),
      move_nodes5 opt qv g cc fixed rn m perm P =
        move_nodes4 opt qv g cc fixed rn perm P)
    ∧ (∀ (m1 m2 : Nat) (perms : Nat → List Nat) (P : MutableVertexPartition),
      merge_nodes5 opt qv g cc fixed rn m1 perms P =
        merge_nodes5 opt qv g cc fixed rn m2 perms P)
    ∧ (∀ (m : Nat) (perms : Nat → List Nat) (P : MutableVertexPartition),
      merge_nodes5 opt qv g cc fixed rn m perms P =
        merge_nodes4 opt qv g cc fixed rn perms P) :=
  ⟨fun _ _ _ _ => rfl, fun _ _ _ => rfl, fun _ _ _ _ => rfl, fun _ _ _ => rfl⟩

/-- C6 counterexample: on the two-vertex unit-edge graph under CPM with
γ = 1/10, starting from singletons (every community of size 1), the
5-argument `move_nodes` called with `max_comm_size = 1` still merges the
two vertices, leaving community 1 with size 2 — the claimed invariant
`csize(c) ≤ max_comm_size` is violated. -/
theorem claim6_counterexample :
    (∀ c, c < exP2.n_communities → csize exG2 exP2 c ≤ 1) ∧
    (1 : ℚ) < csize exG2
      (move_nodes5 exOpt (QVariant.cpm (1 / 10)) exG2 ConsiderComms.allNeighComms
        exFixed2 true 1 [0, 1] exP2).2 1 := by
  constructor
  · intro c hc
    have hc2 : c < 2 := hc
    interval_cases c <;>
      norm_num [csize, exG2, exP2, commOf, nodeWeight,
        show List.range 2 = [0, 1] from rfl, List.getD_cons_zero, getD_cons_one,
        -List.getD_eq_getElem?_getD]
  · show (1 : ℚ) < csize exG2
      (runPass (step4 exOpt (QVariant.cpm (1 / 10)) exG2 ConsiderComms.allNeighComms
        exFixed2) [0, 1] exP2).1 1
    norm_num [runPass, step4, exOpt, exFixed2, considerEmptyStep, scanStep, neigh_comms,
      neighborsOf, neighAux, dedupFirst, diff_move, quality, move_node, csize,
      weightInComm, commOf, nodeWeight, totalWeight, exG2, exP2,
      show List.range 2 = [0, 1] from rfl, show List.range 3 = [0, 1, 2] from rfl,
      List.getD_cons_zero, getD_cons_one, getD_cons_two,
      -List.getD_eq_getElem?_getD]

/-- C4 (amended): per `consider_comms`, the candidate set the 4-argument
routines score for a vertex is: every distinct neighbour community for
`ALL_NEIGH_COMMS`; every community index below `n_communities()` other
than the current one for `ALL_COMMS`; and — contrary to the claim — no
community at all for `RAND_NEIGH_COMM` and `RAND_COMM`, which are
unhandled in this source, so under those settings only the
empty-community clause can trigger a move, and with
`consider_empty_community` unset the step never moves anything.  The
empty-community clause itself behaves as claimed: when set and
`n_communities() < N`, the fresh index is additionally scored. -/
theorem claim4_theorem (opt : Optimiser) (qv : QVariant) (g : Graph)
    (cc : ConsiderComms) (fixed : List Bool) (P : MutableVertexPartition) (i : Nat) :
    step4 opt qv g cc fixed P i =
      (if fixed.getD i false then (P, false) else
        (if (considerEmptyStep opt qv g P i
              ((scored_comms g P cc i (commOf P i)).foldl (scanStep qv g P i)
                (commOf P i, 0))).1 ≠ commOf P i ∧
            0 < (considerEmptyStep opt qv g P i
              ((scored_comms g P cc i (commOf P i)).foldl (scanStep qv g P i)
                (commOf P i, 0))).2
          then (move_node P i (considerEmptyStep opt qv g P i
              ((scored_comms g P cc i (commOf P i)).foldl (scanStep qv g P i)
                (commOf P i, 0))).1, true)
          else (P, false)))
    ∧ (opt.consider_empty_community = false → cc = ConsiderComms.randNeighComm →
        step4 opt qv g cc fixed P i = (P, false))
    ∧ (opt.consider_empty_community = false → cc = ConsiderComms.randComm →
        step4 opt qv g cc fixed P i = (P, false)) := by
  refine ⟨?_, ?_, ?_⟩
  · cases cc <;> rfl
  · intro hempty hcc
    subst hcc
    simp [step4, considerEmptyStep, hempty]
  · intro hempty hcc
    subst hcc
    simp [step4, considerEmptyStep, hempty]

/-- C4 witness: with `RAND_NEIGH_COMM` and no empty-community option the
4-argument step leaves the singleton partition of the two-vertex graph
untouched. -/
theorem claim4_witness :
    step4 exOpt (QVariant.cpm (1 / 10)) exG2 ConsiderComms.randNeighComm exFixed2 exP2 0
      = (exP2, false) :=
  (claim4_theorem exOpt (QVariant.cpm (1 / 10)) exG2 ConsiderComms.randNeighComm
    exFixed2 exP2 0).2.1 rfl rfl

/-- C4 counterexample: under `RAND_NEIGH_COMM` the claim demands that one
uniformly chosen neighbour community be scored; vertex 0 of the
two-vertex graph has exactly one neighbour community and joining it has a
strictly positive gain, so any uniform choice would move it — yet the
4-argument `move_nodes` leaves the partition unchanged, because the
source scores no candidates for the RAND settings. -/
theorem claim4_counterexample :
    (move_nodes4 exOpt (QVariant.cpm (1 / 10)) exG2 ConsiderComms.randNeighComm
        exFixed2 true [0, 1] exP2).2 = exP2
    ∧ 0 < diff_move (QVariant.cpm (1 / 10)) exG2 exP2 0 1 := by
  constructor
  · show (runPass (step4 exOpt (QVariant.cpm (1 / 10)) exG2 ConsiderComms.randNeighComm
      exFixed2) [0, 1] exP2).1 = exP2
    simp [runPass, step4, exOpt, exFixed2, considerEmptyStep, exP2, exG2, commOf,
      List.getD_cons_zero, getD_cons_one, -List.getD_eq_getElem?_getD]
  · have h : diff_move (QVariant.cpm (1 / 10)) exG2 exP2 0 1 = 4 / 5 := by
      simp [diff_move, quality, exG2, exP2, weightInComm, csize, commOf, nodeWeight,
        move_node, totalWeight, show List.range 2 = [0, 1] from rfl,
        List.getD_cons_zero, getD_cons_one, getD_cons_two,
        -List.getD_eq_getElem?_getD]
      norm_num
    rw [h]
    norm_num

/-- Index-one write on a literal list. -/
theorem set_cons_one {α : Type _} (a b : α) (l : List α) (c : α) :
    (a :: b :: l).set 1 c = a :: c :: l := rfl

/-- Index-two write on a literal list. -/
theorem set_cons_two {α : Type _} (a b d : α) (l : List α) (c : α) :
    (a :: b :: d :: l).set 2 c = a :: b :: c :: l := rfl

/-- C2 (amended): the 2-argument `move_nodes` repeats passes — a fresh
permutation each pass — until a full pass performs zero moves: with the
proven-sufficient fuel the loop always exits normally, and the pass at
the stopping index moves nothing and leaves the result fixed.  Its return
value is quality-after minus quality-before.  The 4-argument overload
instead performs exactly one pass, also returning the quality
difference. -/
theorem claim2_theorem (opt : Optimiser) (qv : QVariant) (g : Graph)
    (perms : Nat → List Nat) (fixed : List Bool) (P : MutableVertexPartition)
    (hg : GraphWF g) (hP : PWF g P) :
    (move_nodes_impl opt qv g perms fixed P).2.2 = true
    ∧ runPass (stepImpl opt qv g fixed)
        (perms ((move_nodes_impl opt qv g perms fixed P).2.1 - 1))
        (move_nodes_impl opt qv g perms fixed P).1
      = ((move_nodes_impl opt qv g perms fixed P).1, false)
    ∧ (move_nodes opt qv g perms fixed P).1
      = quality qv g (move_nodes_impl opt qv g perms fixed P).1 - quality qv g P
    ∧ (move_nodes opt qv g perms fixed P).2 = (move_nodes_impl opt qv g perms fixed P).1
    ∧ (∀ (cc : ConsiderComms) (rn : Bool) (perm : List Nat),
        move_nodes4 opt qv g cc fixed rn perm P
          = (quality qv g (runPass (step4 opt qv g cc fixed) perm P).1 - quality qv g P,
             (runPass (step4 opt qv g cc fixed) perm P).1)) := by
  have hstep := stepImpl_cases opt qv g fixed hg
  have hmu : mu qv g P < bigFuel g := by
    have := mu_le qv g P
    unfold bigFuel
    omega
  have hflag := loopPasses_flag qv g _ hstep perms (bigFuel g) 0 P hP hmu
  have hlast := loopPasses_last qv g _ hstep perms (bigFuel g) 0 P hP hflag
  refine ⟨hflag, ?_, rfl, rfl, fun _ _ _ => rfl⟩
  have hidx : 0 + (loopPasses (stepImpl opt qv g fixed) perms (bigFuel g) 0 P).2.1 - 1
      = (loopPasses (stepImpl opt qv g fixed) perms (bigFuel g) 0 P).2.1 - 1 := by
    omega
  rw [hidx] at hlast
  exact hlast

/-- C2 witness: the 2-argument loop exits normally on the two-vertex
example under CPM. -/
theorem claim2_witness :
    GraphWF exG2 ∧ PWF exG2 exP2 ∧
    (move_nodes_impl exOpt (QVariant.cpm (1 / 10)) exG2 (constPerms [0, 1])
      exFixed2 exP2).2.2 = true :=
  ⟨by decide, by decide,
   (claim2_theorem exOpt (QVariant.cpm (1 / 10)) exG2 (constPerms [0, 1]) exFixed2 exP2
     (by decide) (by decide)).1⟩

/-- C2 counterexample: the 4-argument `move_nodes` performs a single pass
only.  On the weighted path 0 — 1 — 2 (weights 4 and 10) under CPM with
γ = 9/10, starting from `{0, 1} {2}` with visit order `[0, 1, 2]`, the
pass it performs moves vertex 1 but leaves a further improving move
behind: running one more pass over the returned partition still moves a
vertex, so the routine did not iterate until a full pass performed zero
moves. -/
theorem claim2_counterexample :
    (runPass (step4 exOpt (QVariant.cpm (9 / 10)) exG3 ConsiderComms.allNeighComms
        exFixed3) [0, 1, 2]
      (move_nodes4 exOpt (QVariant.cpm (9 / 10)) exG3 ConsiderComms.allNeighComms
        exFixed3 true [0, 1, 2] exP3).2).2 = true := by
  show (runPass (step4 exOpt (QVariant.cpm (9 / 10)) exG3 ConsiderComms.allNeighComms
        exFixed3) [0, 1, 2]
      (runPass (step4 exOpt (QVariant.cpm (9 / 10)) exG3 ConsiderComms.allNeighComms
        exFixed3) [0, 1, 2] exP3).1).2 = true
  norm_num [runPass, step4, exOpt, exFixed3, considerEmptyStep, scanStep, neigh_comms,
    neighborsOf, neighAux, dedupFirst, diff_move, quality, move_node, csize,
    weightInComm, commOf, nodeWeight, totalWeight, exG3, exP3,
    show List.range 2 = [0, 1] from rfl, show List.range 3 = [0, 1, 2] from rfl,
    List.getD_cons_zero, getD_cons_one, getD_cons_two, List.set_cons_zero,
    set_cons_one, set_cons_two, -List.getD_eq_getElem?_getD]

/-- After its last occurrence in the visit order, a vertex's membership
is never changed by the rest of the pass. -/
theorem runPass_append_getD (qv : QVariant) (g : Graph)
    (step : MutableVertexPartition → Nat → MutableVertexPartition × Bool)
    (hstep : StepOk qv g step) (v d : Nat) (l1 l2 : List Nat)
    (P : MutableVertexPartition) (hP : PWF g P) (hv : v ∉ l2) :
    (runPass step (l1 ++ l2) P).1.membership.getD v d
      = (runPass step l1 P).1.membership.getD v d := by
  have h1 := (runPass_main qv g step hstep l1 P hP).1
  have h2 := fold_getD_not_mem qv g step hstep v d l2 (runPass step l1 P) hv h1
  have h3 : runPass step (l1 ++ l2) P =
      l2.foldl (fun s i => ((step s.1 i).1, s.2 || (step s.1 i).2))
        (runPass step l1 P) := by
    unfold runPass
    rw [List.foldl_append]
  rw [h3]
  exact h2

/-- C8: during a single pass of either merge routine — the 4-argument
`merge_nodes` pass body or the 2-argument one — once the visit order is
past a vertex's occurrences, the vertex's membership never changes again
for the remainder of that pass; in particular a vertex that moved out of
its singleton stays pinned for the rest of the pass, since other
vertices' moves never touch its membership slot. -/
theorem claim8_theorem (opt : Optimiser) (qv : QVariant) (g : Graph)
    (cc : ConsiderComms) (fixed : List Bool) (v d : Nat) (l1 l2 : List Nat)
    (P : MutableVertexPartition) (hg : GraphWF g) (hP : PWF g P) (hv : v ∉ l2) :
    (runPass (step4 opt qv g cc fixed) (l1 ++ l2) P).1.membership.getD v d
      = (runPass (step4 opt qv g cc fixed) l1 P).1.membership.getD v d
    ∧ (runPass (mergeStep2 opt qv g fixed) (l1 ++ l2) P).1.membership.getD v d
      = (runPass (mergeStep2 opt qv g fixed) l1 P).1.membership.getD v d :=
  ⟨runPass_append_getD qv g _ (step4_cases opt qv g cc fixed hg) v d l1 l2 P hP hv,
   runPass_append_getD qv g _ (mergeStep2_cases opt qv g fixed hg) v d l1 l2 P hP hv⟩

/-- C8 witness: vertex 0 of the two-vertex example, processed first, is
untouched by the remainder of the merge pass. -/
theorem claim8_witness :
    (0 : Nat) ∉ [1] ∧
    (runPass (mergeStep2 exOpt (QVariant.cpm (1 / 10)) exG2 exFixed2) ([0] ++ [1])
        exP2).1.membership.getD 0 0
      = (runPass (mergeStep2 exOpt (QVariant.cpm (1 / 10)) exG2 exFixed2) [0]
        exP2).1.membership.getD 0 0 :=
  ⟨by decide,
   (claim8_theorem exOpt (QVariant.cpm (1 / 10)) exG2 ConsiderComms.allNeighComms
     exFixed2 0 0 [0] [1] exP2 (by decide) (by decide) (by decide)).2⟩

/-- C5: a vertex `v` with `is_membership_fixed[v] = true` keeps its
community assignment through every routine of `Optimiser.cpp`: the
2-argument `move_nodes` loop, the 4- and 5-argument `move_nodes`
overloads, the 2-, 4- and 5-argument `merge_nodes` overloads, and
`optimise_partition` (whose argument partition is mutated only by its
first routine call). -/
theorem claim5_theorem (opt : Optimiser) (qv : QVariant) (g : Graph)
    (fixed : List Bool) (v d : Nat) (hg : GraphWF g)
    (hv : fixed.getD v false = true) :
    (∀ (perms : Nat → List Nat) (P : MutableVertexPartition), PWF g P →
      (move_nodes opt qv g perms fixed P).2.membership.getD v d
        = P.membership.getD v d)
    ∧ (∀ (cc : ConsiderComms) (rn : Bool) (perm : List Nat)
        (P : MutableVertexPartition), PWF g P →
      (move_nodes4 opt qv g cc fixed rn perm P).2.membership.getD v d
        = P.membership.getD v d)
    ∧ (∀ (cc : ConsiderComms) (rn : Bool) (m : Nat) (perm : List Nat)
        (P : MutableVertexPartition), PWF g P →
      (move_nodes5 opt qv g cc fixed rn m perm P).2.membership.getD v d
        = P.membership.getD v d)
    ∧ (∀ (perms : Nat → List Nat) (P : MutableVertexPartition), PWF g P →
      (merge_nodes opt qv g perms fixed P).2.membership.getD v d
        = P.membership.getD v d)
    ∧ (∀ (cc : ConsiderComms) (rn : Bool) (perms : Nat → List Nat)
        (P : MutableVertexPartition), PWF g P →
      (merge_nodes4 opt qv g cc fixed rn perms P).2.membership.getD v d
        = P.membership.getD v d)
    ∧ (∀ (cc : ConsiderComms) (rn : Bool) (m : Nat) (perms : Nat → List Nat)
        (P : MutableVertexPartition), PWF g P →
      (merge_nodes5 opt qv g cc fixed rn m perms P).2.membership.getD v d
        = P.membership.getD v d)
    ∧ (∀ (perms : Nat → Nat → List Nat) (nIter : Int) (fuel : Nat)
        (P : MutableVertexPartition), PWF g P →
      (optimise_partition opt qv perms nIter fuel g fixed P).base.membership.getD v d
        = P.membership.getD v d) := by
  have hmove : ∀ (perms : Nat → List Nat) (P : MutableVertexPartition), PWF g P →
      (move_nodes opt qv g perms fixed P).2.membership.getD v d
        = P.membership.getD v d := by
    intro perms P hP
    exact loopPasses_getD_fixed qv g _ (stepImpl_cases opt qv g fixed hg) perms v d
      (stepImpl_fixed opt qv g fixed v hv) (bigFuel g) 0 P hP
  have hmove4 : ∀ (cc : ConsiderComms) (rn : Bool) (perm : List Nat)
      (P : MutableVertexPartition), PWF g P →
      (move_nodes4 opt qv g cc fixed rn perm P).2.membership.getD v d
        = P.membership.getD v d := by
    intro cc rn perm P hP
    exact runPass_getD_fixed qv g _ (step4_cases opt qv g cc fixed hg) v d
      (step4_fixed opt qv g cc fixed v hv) perm P hP
  have hmerge : ∀ (perms : Nat → List Nat) (P : MutableVertexPartition), PWF g P →
      (merge_nodes opt qv g perms fixed P).2.membership.getD v d
        = P.membership.getD v d := by
    intro perms P hP
    exact loopPasses_getD_fixed qv g _ (mergeStep2_cases opt qv g fixed hg) perms v d
      (mergeStep2_fixed opt qv g fixed v hv) (bigFuel g) 0 P hP
  have hmerge4 : ∀ (cc : ConsiderComms) (rn : Bool) (perms : Nat → List Nat)
      (P : MutableVertexPartition), PWF g P →
      (merge_nodes4 opt qv g cc fixed rn perms P).2.membership.getD v d
        = P.membership.getD v d := by
    intro cc rn perms P hP
    exact loopPasses_getD_fixed qv g _ (step4_cases opt qv g cc fixed hg) perms v d
      (step4_fixed opt qv g cc fixed v hv) (bigFuel g) 0 P hP
  refine ⟨hmove, hmove4, fun cc rn _ perm P hP => hmove4 cc rn perm P hP,
    hmerge, hmerge4, fun cc rn _ perms P hP => hmerge4 cc rn perms P hP, ?_⟩
  intro perms nIter fuel P hP
  show (routine_call opt qv g (perms 0) fixed P).2.membership.getD v d
    = P.membership.getD v d
  unfold routine_call
  cases hr : opt.optimise_routine
  · exact hmove (perms 0) P hP
  · exact hmerge (perms 0) P hP

/-- C5 witness: with all three K3 vertices fixed, vertex 0 keeps its
community through the 2-argument `move_nodes`. -/
theorem claim5_witness :
    ([true, true, true] : List Bool).getD 0 false = true ∧
    (move_nodes exOpt QVariant.modularity exK3 (constPerms [0, 1, 2]) exFixedAll3
      exK3P).2.membership.getD 0 0 = exK3P.membership.getD 0 0 :=
  ⟨by decide,
   (claim5_theorem exOpt QVariant.modularity exK3 exFixedAll3 0 0 (by decide)
     (by decide)).1 (constPerms [0, 1, 2]) exK3P (by decide)⟩

/-- On the empty graph the `move_nodes_impl` step does nothing. -/
theorem stepImpl_empty (opt : Optimiser) (qv : QVariant) (fixed : List Bool)
    (i : Nat) : stepImpl opt qv exEmptyG fixed exEmptyP i = (exEmptyP, false) := by
  simp [stepImpl, considerEmptyStep, neigh_comms, neighborsOf, neighAux, dedupFirst,
    exEmptyG, exEmptyP, commOf]

/-- On the empty graph the shared 4-argument step does nothing. -/
theorem step4_empty (opt : Optimiser) (qv : QVariant) (cc : ConsiderComms)
    (fixed : List Bool) (i : Nat) :
    step4 opt qv exEmptyG cc fixed exEmptyP i = (exEmptyP, false) := by
  simp [step4, considerEmptyStep, neigh_comms, neighborsOf, neighAux, dedupFirst,
    exEmptyG, exEmptyP, commOf]

/-- On the empty graph the 2-argument merge step does nothing. -/
theorem mergeStep2_empty (opt : Optimiser) (qv : QVariant) (fixed : List Bool)
    (i : Nat) : mergeStep2 opt qv exEmptyG fixed exEmptyP i = (exEmptyP, false) := by
  simp [mergeStep2, considerEmptyStep, neigh_comms, neighborsOf, neighAux, dedupFirst,
    exEmptyG, exEmptyP, commOf]

/-- A pass built from a do-nothing step does nothing. -/
theorem runPass_empty_id
    (step : MutableVertexPartition → Nat → MutableVertexPartition × Bool)
    (hid : ∀ i, step exEmptyP i = (exEmptyP, false)) (perm : List Nat) :
    runPass step perm exEmptyP = (exEmptyP, false) := by
  refine foldl_inv _ (fun s => s = (exEmptyP, false)) ?_ perm (exEmptyP, false) rfl
  intro b a hb
  rw [hb]
  show ((step exEmptyP a).1, false || (step exEmptyP a).2) = (exEmptyP, false)
  rw [hid a]
  rfl

/-- A loop whose first pass performs no moves stops after that pass. -/
theorem loopPasses_one_pass
    (step : MutableVertexPartition → Nat → MutableVertexPartition × Bool)
    (perms : Nat → List Nat) (k : Nat) (P : MutableVertexPartition)
    (hid : runPass step (perms k) P = (P, false)) (fuel : Nat) :
    loopPasses step perms (fuel + 1) k P = (P, 1, true) := by
  simp [loopPasses, hid]

/-- On the empty graph every routine call returns a zero quality delta
and the unchanged empty partition. -/
theorem routine_call_empty (opt : Optimiser) (qv : QVariant)
    (perms1 : Nat → List Nat) (fixed : List Bool) :
    routine_call opt qv exEmptyG perms1 fixed exEmptyP = (0, exEmptyP) := by
  have hbig : bigFuel exEmptyG = 1 + 1 := rfl
  have hmovei : move_nodes_impl opt qv exEmptyG perms1 fixed exEmptyP
      = (exEmptyP, 1, true) := by
    unfold move_nodes_impl
    rw [hbig]
    exact loopPasses_one_pass _ perms1 0 exEmptyP
      (runPass_empty_id _ (stepImpl_empty opt qv fixed) (perms1 0)) 1
  have hmergei : loopPasses (mergeStep2 opt qv exEmptyG fixed) perms1
      (bigFuel exEmptyG) 0 exEmptyP = (exEmptyP, 1, true) := by
    rw [hbig]
    exact loopPasses_one_pass _ perms1 0 exEmptyP
      (runPass_empty_id _ (mergeStep2_empty opt qv fixed) (perms1 0)) 1
  unfold routine_call
  cases hr : opt.optimise_routine
  · unfold move_nodes
    rw [hmovei, sub_self]
  · unfold merge_nodes
    rw [hmergei, sub_self]

/-- On the empty graph both quality variants evaluate to zero. -/
theorem quality_empty (qv : QVariant) : quality qv exEmptyG exEmptyP = 0 := by
  cases qv <;> simp [quality, exEmptyP]

/-- C1 (amended): the source `optimise_partition` returns no value — its
C++ signature is `void`, so no final quality is handed to the caller
(`ret = none`) — and on the empty graph (`N = 0`) it terminates after one
routine call without panicking, leaving the caller's partition with its
empty membership and quality 0, for every configuration, iteration
count, fuel, fixed vector and permutation stream. -/
theorem claim1_theorem (opt : Optimiser) (qv : QVariant)
    (perms : Nat → Nat → List Nat) (nIter : Int) (fuel : Nat) (fixed : List Bool) :
    (optimise_partition opt qv perms nIter fuel exEmptyG fixed exEmptyP).ret = none
    ∧ (optimise_partition opt qv perms nIter fuel exEmptyG fixed exEmptyP).base
      = exEmptyP
    ∧ (optimise_partition opt qv perms nIter fuel exEmptyG fixed
        exEmptyP).base.membership = []
    ∧ quality qv exEmptyG
        (optimise_partition opt qv perms nIter fuel exEmptyG fixed exEmptyP).base = 0
    ∧ (optimise_partition opt qv perms nIter fuel exEmptyG fixed exEmptyP).calls = 1
    := by
  have hbase : (optimise_partition opt qv perms nIter fuel exEmptyG fixed
      exEmptyP).base = exEmptyP := by
    show (routine_call opt qv exEmptyG (perms 0) fixed exEmptyP).2 = exEmptyP
    rw [routine_call_empty]
  have hs0 : driver_iter opt qv perms fixed 0 exEmptyG exEmptyP
      = (false, exEmptyG, exEmptyP) := by
    unfold driver_iter
    rw [routine_call_empty]
    simp
  have hcalls : (optimise_partition opt qv perms nIter fuel exEmptyG fixed
      exEmptyP).calls = 1 := by
    show (optimiser_loop opt qv perms fixed nIter fuel 1 2
        (driver_iter opt qv perms fixed 0 exEmptyG exEmptyP).1
        (driver_iter opt qv perms fixed 0 exEmptyG exEmptyP).2.1
        (driver_iter opt qv perms fixed 0 exEmptyG exEmptyP).2.2).calls + 1 = 1
    rw [hs0]
    show (optimiser_loop opt qv perms fixed nIter fuel 1 2 false exEmptyG
      exEmptyP).calls + 1 = 1
    rw [optimiser_loop_false]
  refine ⟨rfl, hbase, ?_, ?_, hcalls⟩
  · rw [hbase]
    rfl
  · rw [hbase, quality_empty]

/-- C1 counterexample: the claim, as stated, says the empty-graph call
returns quality 0 as its `f64` result; the source function is `void`, so
its result channel carries nothing, and in particular not `some 0`. -/
theorem claim1_counterexample :
    (optimise_partition exOpt (QVariant.cpm (1 / 10)) (constPerms2 []) 2 3 exEmptyG []
      exEmptyP).ret ≠ some (0 : ℚ) := by
  intro h
  exact Option.noConfusion h

/-- One unfolding of the pass loop at successor fuel. -/
theorem loopPasses_succ_unfold
    (step : MutableVertexPartition → Nat → MutableVertexPartition × Bool)
    (perms : Nat → List Nat) (fuel k : Nat) (P : MutableVertexPartition) :
    loopPasses step perms (fuel + 1) k P =
      if (runPass step (perms k) P).2 then
        ((loopPasses step perms fuel (k + 1) (runPass step (perms k) P).1).1,
         (loopPasses step perms fuel (k + 1) (runPass step (perms k) P).1).2.1 + 1,
         (loopPasses step perms fuel (k + 1) (runPass step (perms k) P).1).2.2)
      else ((runPass step (perms k) P).1, 1, true) := rfl

/-- C7 (amended): the driver's first routine call is unconditional, so
with `n_iterations = 0` one call still runs; for `n_iterations ≥ 0` the
driver makes at most `max 1 n_iterations` routine calls, and it stops
earlier than that bound only when an iteration fails to improve; for
`n_iterations < 0` the iteration count bounds nothing and only loss of
improvement stops the loop (a run still improving at the end consumed all
its fuel). -/
theorem claim7_theorem (opt : Optimiser) (qv : QVariant)
    (perms : Nat → Nat → List Nat) (fixed : List Bool) (nIter : Int) (fuel : Nat)
    (g : Graph) (P : MutableVertexPartition) :
    (nIter = 0 →
      (optimise_partition opt qv perms nIter fuel g fixed P).calls = 1)
    ∧ (0 ≤ nIter →
      (optimise_partition opt qv perms nIter fuel g fixed P).calls ≤
        max 1 nIter.toNat)
    ∧ (0 ≤ nIter → nIter.toNat ≤ fuel + 1 →
      (optimise_partition opt qv perms nIter fuel g fixed P).lastImp = true →
      (optimise_partition opt qv perms nIter fuel g fixed P).calls =
        max 1 nIter.toNat)
    ∧ (nIter < 0 →
      (optimise_partition opt qv perms nIter fuel g fixed P).lastImp = true →
      (optimise_partition opt qv perms nIter fuel g fixed P).calls = fuel + 1) := by
  refine ⟨?_, ?_, ?_, ?_⟩
  · intro h0
    subst h0
    have h1 := optimiser_loop_calls_le opt qv perms fixed 0 (by omega) fuel 1 2
      (driver_iter opt qv perms fixed 0 g P).1
      (driver_iter opt qv perms fixed 0 g P).2.1
      (driver_iter opt qv perms fixed 0 g P).2.2
    show (optimiser_loop opt qv perms fixed 0 fuel 1 2
        (driver_iter opt qv perms fixed 0 g P).1
        (driver_iter opt qv perms fixed 0 g P).2.1
        (driver_iter opt qv perms fixed 0 g P).2.2).calls + 1 = 1
    omega
  · intro h0
    have h1 := optimiser_loop_calls_le opt qv perms fixed nIter h0 fuel 1 2
      (driver_iter opt qv perms fixed 0 g P).1
      (driver_iter opt qv perms fixed 0 g P).2.1
      (driver_iter opt qv perms fixed 0 g P).2.2
    show (optimiser_loop opt qv perms fixed nIter fuel 1 2
        (driver_iter opt qv perms fixed 0 g P).1
        (driver_iter opt qv perms fixed 0 g P).2.1
        (driver_iter opt qv perms fixed 0 g P).2.2).calls + 1 ≤ max 1 nIter.toNat
    omega
  · intro h0 hfuel hl
    have hl' : (optimiser_loop opt qv perms fixed nIter fuel 1 2
        (driver_iter opt qv perms fixed 0 g P).1
        (driver_iter opt qv perms fixed 0 g P).2.1
        (driver_iter opt qv perms fixed 0 g P).2.2).lastImp = true := hl
    have h1 := optimiser_loop_lastImp_nonneg opt qv perms fixed nIter h0 fuel 1 2
      (driver_iter opt qv perms fixed 0 g P).1
      (driver_iter opt qv perms fixed 0 g P).2.1
      (driver_iter opt qv perms fixed 0 g P).2.2 (by omega) hl'
    show (optimiser_loop opt qv perms fixed nIter fuel 1 2
        (driver_iter opt qv perms fixed 0 g P).1
        (driver_iter opt qv perms fixed 0 g P).2.1
        (driver_iter opt qv perms fixed 0 g P).2.2).calls + 1 = max 1 nIter.toNat
    omega
  · intro hn hl
    have hl' : (optimiser_loop opt qv perms fixed nIter fuel 1 2
        (driver_iter opt qv perms fixed 0 g P).1
        (driver_iter opt qv perms fixed 0 g P).2.1
        (driver_iter opt qv perms fixed 0 g P).2.2).lastImp = true := hl
    have h1 := optimiser_loop_lastImp_neg opt qv perms fixed nIter hn fuel 1 2
      (driver_iter opt qv perms fixed 0 g P).1
      (driver_iter opt qv perms fixed 0 g P).2.1
      (driver_iter opt qv perms fixed 0 g P).2.2 hl'
    show (optimiser_loop opt qv perms fixed nIter fuel 1 2
        (driver_iter opt qv perms fixed 0 g P).1
        (driver_iter opt qv perms fixed 0 g P).2.1
        (driver_iter opt qv perms fixed 0 g P).2.2).calls + 1 = fuel + 1
    omega

/-- C7 witness: the call bound at a concrete positive iteration count. -/
theorem claim7_witness :
    (optimise_partition exOpt (QVariant.cpm (1 / 10)) (constPerms2 [0, 1]) 3 5 exG2
      exFixed2 exP2).calls ≤ max 1 (Int.toNat 3) :=
  (claim7_theorem exOpt (QVariant.cpm (1 / 10)) (constPerms2 [0, 1]) exFixed2 3 5
    exG2 exP2).2.1 (by norm_num)

/-- C7 counterexample: with `n_iterations = 0` the claim says zero passes
are run, yet on the two-vertex example the driver still makes one routine
call and that call changes the caller's partition (the two vertices
merge). -/
theorem claim7_counterexample :
    (optimise_partition exOpt (QVariant.cpm (1 / 10)) (constPerms2 [0, 1]) 0 5 exG2
      exFixed2 exP2).calls = 1
    ∧ (optimise_partition exOpt (QVariant.cpm (1 / 10)) (constPerms2 [0, 1]) 0 5 exG2
      exFixed2 exP2).base ≠ exP2 := by
  have hpass1 : runPass (stepImpl exOpt (QVariant.cpm (1 / 10)) exG2 exFixed2) [0, 1]
      exP2 = (⟨[1, 1], 2⟩, true) := by
    norm_num [runPass, stepImpl, exOpt, exFixed2, considerEmptyStep, scanStep,
      neigh_comms, neighborsOf, neighAux, dedupFirst, diff_move, quality, move_node,
      csize, weightInComm, commOf, nodeWeight, totalWeight, exG2, exP2,
      show List.range 2 = [0, 1] from rfl, List.getD_cons_zero, getD_cons_one,
      List.set_cons_zero, set_cons_one, -List.getD_eq_getElem?_getD]
  have hpass2 : runPass (stepImpl exOpt (QVariant.cpm (1 / 10)) exG2 exFixed2) [0, 1]
      ⟨[1, 1], 2⟩ = (⟨[1, 1], 2⟩, false) := by
    norm_num [runPass, stepImpl, exOpt, exFixed2, considerEmptyStep, scanStep,
      neigh_comms, neighborsOf, neighAux, dedupFirst, diff_move, quality, move_node,
      csize, weightInComm, commOf, nodeWeight, totalWeight, exG2, exP2,
      show List.range 2 = [0, 1] from rfl, List.getD_cons_zero, getD_cons_one,
      List.set_cons_zero, set_cons_one, -List.getD_eq_getElem?_getD]
  have himpl : move_nodes_impl exOpt (QVariant.cpm (1 / 10)) exG2 (constPerms2 [0, 1] 0)
      exFixed2 exP2 = (⟨[1, 1], 2⟩, 2, true) := by
    unfold move_nodes_impl
    have hbig : bigFuel exG2 = 11 + 1 + 1 := rfl
    rw [hbig, loopPasses_succ_unfold,
      show constPerms2 [0, 1] 0 0 = [0, 1] from rfl, hpass1,
      if_pos (show ((⟨[1, 1], 2⟩ : MutableVertexPartition), true).2 = true from rfl),
      loopPasses_succ_unfold,
      show constPerms2 [0, 1] 0 1 = [0, 1] from rfl, hpass2,
      if_neg (show ¬ ((⟨[1, 1], 2⟩ : MutableVertexPartition), false).2 = true from
        by simp)]
  have hbase : (optimise_partition exOpt (QVariant.cpm (1 / 10)) (constPerms2 [0, 1]) 0 5
      exG2 exFixed2 exP2).base = ⟨[1, 1], 2⟩ := by
    show (move_nodes_impl exOpt (QVariant.cpm (1 / 10)) exG2 (constPerms2 [0, 1] 0)
      exFixed2 exP2).1 = ⟨[1, 1], 2⟩
    rw [himpl]
  constructor
  · exact (claim7_theorem exOpt (QVariant.cpm (1 / 10)) (constPerms2 [0, 1]) exFixed2 0 5
      exG2 exP2).1 rfl
  · rw [hbase]
    intro h
    simp [exP2] at h

/-- The hierarchical loop only ever appends to the hierarchy. -/
theorem hier_loop_hierarchy (opt : Optimiser) (qv : QVariant)
    (perms : Nat → Nat → List Nat) (fixed : List Bool) :
    ∀ (fuel t : Nat) (w : Bool) (G : Graph) (P : MutableVertexPartition)
      (acc : HierOut),
      ∃ s, (hier_loop opt qv perms fixed fuel t w G P acc).hierarchy =
        acc.hierarchy ++ s := by
  intro fuel
  induction fuel with
  | zero => intro t w G P acc; exact ⟨[], (List.append_nil _).symm⟩
  | succ fuel ih =>
      intro t w G P acc
      simp only [hier_loop]
      by_cases hw : w = true
      · rw [if_pos hw]
        by_cases hr : (0 : ℚ) < (routine_call opt qv G (perms t) fixed P).1
        · rw [if_pos hr]
          obtain ⟨s, hs⟩ := ih (t + 2) true
            (aggregate opt qv (perms (t + 1)) G fixed
              (routine_call opt qv G (perms t) fixed P).2).1
            (aggregate opt qv (perms (t + 1)) G fixed
              (routine_call opt qv G (perms t) fixed P).2).2
            ⟨acc.parts.set 0
              ((aggregate opt qv (perms (t + 1)) G fixed
                 (routine_call opt qv G (perms t) fixed P).2).1,
               (aggregate opt qv (perms (t + 1)) G fixed
                 (routine_call opt qv G (perms t) fixed P).2).2),
             acc.hierarchy ++ [(G, copy_from_graph
               (aggregate opt qv (perms (t + 1)) G fixed
                 (routine_call opt qv G (perms t) fixed P).2).2 G
               (routine_call opt qv G (perms t) fixed P).2)]⟩
          refine ⟨(G, copy_from_graph
            (aggregate opt qv (perms (t + 1)) G fixed
              (routine_call opt qv G (perms t) fixed P).2).2 G
            (routine_call opt qv G (perms t) fixed P).2) :: s, ?_⟩
          rw [hs]
          exact List.append_assoc _ _ _
        · rw [if_neg hr]
          obtain ⟨s, hs⟩ := ih (t + 2) false G
            (routine_call opt qv G (perms t) fixed P).2
            ⟨acc.parts.set 0 (G, (routine_call opt qv G (perms t) fixed P).2),
             acc.hierarchy⟩
          exact ⟨s, hs⟩
      · rw [if_neg hw]
        exact ⟨[], (List.append_nil _).symm⟩

/-- Starting from a hierarchy with a known head, the loop's result is
non-empty, keeps that head, and returns the quality of its last element
through the final match. -/
theorem hier_loop_out (opt : Optimiser) (qv : QVariant)
    (perms : Nat → Nat → List Nat) (fixed : List Bool) (fuel : Nat) (w : Bool)
    (G : Graph) (P : MutableVertexPartition)
    (parts : List (Graph × MutableVertexPartition))
    (x : Graph × MutableVertexPartition) (l : List (Graph × MutableVertexPartition)) :
    (hier_loop opt qv perms fixed fuel 2 w G P ⟨parts, x :: l⟩).hierarchy ≠ []
    ∧ (hier_loop opt qv perms fixed fuel 2 w G P ⟨parts, x :: l⟩).hierarchy.head?
      = some x := by
  obtain ⟨s, hs⟩ := hier_loop_hierarchy opt qv perms fixed fuel 2 w G P ⟨parts, x :: l⟩
  constructor
  · rw [hs]
    show (x :: l) ++ s ≠ []
    rw [List.cons_append]
    exact List.cons_ne_nil _ _
  · rw [hs]
    show ((x :: l) ++ s).head? = some x
    rw [List.cons_append, List.head?_cons]

/-- C10: with matching vector lengths the hierarchical driver reports no
error, clears the supplied hierarchy and seeds it with a snapshot of the
initial base-level partition before optimising — so the returned
hierarchy is non-empty with the initial level at position 0 — and the
returned value is the `quality()` of the last (coarsest) hierarchy
element, not a quality delta. -/
theorem claim10_theorem (opt : Optimiser) (qv : QVariant)
    (perms : Nat → Nat → List Nat) (fuel : Nat)
    (partitions : List (Graph × MutableVertexPartition)) (layerWeights : List ℚ)
    (fixed : List Bool) (hierarchy : List (Graph × MutableVertexPartition))
    (hlen : partitions.length = layerWeights.length) (hne : partitions ≠ []) :
    (optimise_partition_hierarchical opt qv perms fuel partitions layerWeights fixed
      hierarchy).1 = none
    ∧ (optimise_partition_hierarchical opt qv perms fuel partitions layerWeights fixed
      hierarchy).2.1.hierarchy ≠ []
    ∧ (optimise_partition_hierarchical opt qv perms fuel partitions layerWeights fixed
      hierarchy).2.1.hierarchy.head? = some (partitions.headD defaultLevel)
    ∧ ∃ e, (optimise_partition_hierarchical opt qv perms fuel partitions layerWeights
        fixed hierarchy).2.1.hierarchy.getLast? = some e
      ∧ (optimise_partition_hierarchical opt qv perms fuel partitions layerWeights
          fixed hierarchy).2.2 = quality qv e.1 e.2 := by
  have hnl : ¬ partitions.length ≠ layerWeights.length := fun hc => hc hlen
  unfold optimise_partition_hierarchical
  rw [if_neg hnl]
  dsimp only
  by_cases hr : (0 : ℚ) < (routine_call opt qv (partitions.headD defaultLevel).1
      (perms 0) fixed (partitions.headD defaultLevel).2).1
  · rw [if_pos hr]
    dsimp only
    have hout := hier_loop_out opt qv perms fixed fuel true
      (aggregate opt qv (perms 1) (partitions.headD defaultLevel).1 fixed
        (routine_call opt qv (partitions.headD defaultLevel).1 (perms 0) fixed
          (partitions.headD defaultLevel).2).2).1
      (aggregate opt qv (perms 1) (partitions.headD defaultLevel).1 fixed
        (routine_call opt qv (partitions.headD defaultLevel).1 (perms 0) fixed
          (partitions.headD defaultLevel).2).2).2
      (partitions.set 0
        ((aggregate opt qv (perms 1) (partitions.headD defaultLevel).1 fixed
          (routine_call opt qv (partitions.headD defaultLevel).1 (perms 0) fixed
            (partitions.headD defaultLevel).2).2).1,
         (aggregate opt qv (perms 1) (partitions.headD defaultLevel).1 fixed
          (routine_call opt qv (partitions.headD defaultLevel).1 (perms 0) fixed
            (partitions.headD defaultLevel).2).2).2))
      ((partitions.headD defaultLevel).1, (partitions.headD defaultLevel).2)
      [((partitions.headD defaultLevel).1,
        copy_from_graph
          (aggregate opt qv (perms 1) (partitions.headD defaultLevel).1 fixed
            (routine_call opt qv (partitions.headD defaultLevel).1 (perms 0) fixed
              (partitions.headD defaultLevel).2).2).2
          (partitions.headD defaultLevel).1
          (routine_call opt qv (partitions.headD defaultLevel).1 (perms 0) fixed
            (partitions.headD defaultLevel).2).2)]
    refine ⟨rfl, hout.1, hout.2, ?_⟩
    rcases hgl : (hier_loop opt qv perms fixed fuel 2 true _ _ _).hierarchy.getLast?
      with _ | e
    · rw [List.getLast?_eq_none_iff] at hgl
      exact absurd hgl hout.1
    · exact ⟨e, rfl, rfl⟩
  · rw [if_neg hr]
    dsimp only
    have hout := hier_loop_out opt qv perms fixed fuel false
      (partitions.headD defaultLevel).1
      (routine_call opt qv (partitions.headD defaultLevel).1 (perms 0) fixed
        (partitions.headD defaultLevel).2).2
      (partitions.set 0 ((partitions.headD defaultLevel).1,
        (routine_call opt qv (partitions.headD defaultLevel).1 (perms 0) fixed
          (partitions.headD defaultLevel).2).2))
      ((partitions.headD defaultLevel).1, (partitions.headD defaultLevel).2) []
    refine ⟨rfl, hout.1, hout.2, ?_⟩
    rcases hgl : (hier_loop opt qv perms fixed fuel 2 false _ _ _).hierarchy.getLast?
      with _ | e
    · rw [List.getLast?_eq_none_iff] at hgl
      exact absurd hgl hout.1
    · exact ⟨e, rfl, rfl⟩

/-- C9: `optimise_partition_hierarchical` raises the length-mismatch
error exactly when the partitions and layer_weights vectors differ in
length, and because the check precedes every mutation, on error the
partitions vector and the hierarchy are returned untouched. -/
theorem claim9_theorem (opt : Optimiser) (qv : QVariant)
    (perms : Nat → Nat → List Nat) (fuel : Nat)
    (partitions : List (Graph × MutableVertexPartition)) (layerWeights : List ℚ)
    (fixed : List Bool) (hierarchy : List (Graph × MutableVertexPartition))
    (hne : partitions ≠ []) :
    ((optimise_partition_hierarchical opt qv perms fuel partitions layerWeights fixed
        hierarchy).1 ≠ none
      ↔ partitions.length ≠ layerWeights.length)
    ∧ (partitions.length ≠ layerWeights.length →
        (optimise_partition_hierarchical opt qv perms fuel partitions layerWeights fixed
          hierarchy).2.1.parts = partitions
        ∧ (optimise_partition_hierarchical opt qv perms fuel partitions layerWeights
            fixed hierarchy).2.1.hierarchy = hierarchy) := by
  unfold optimise_partition_hierarchical
  by_cases h : partitions.length ≠ layerWeights.length
  · rw [if_pos h]
    exact ⟨⟨fun _ => h, fun _ => by simp⟩, fun _ => ⟨rfl, rfl⟩⟩
  · rw [if_neg h]
    exact ⟨⟨fun hc => absurd rfl hc, fun hc => absurd hc h⟩, fun hc => absurd hc h⟩

/-- Witness for C9 at a concrete mismatched input. -/
theorem claim9_witness :
    ([(exG2, exP2)] : List (Graph × MutableVertexPartition)) ≠ []
    ∧ (optimise_partition_hierarchical exOpt (QVariant.cpm (1 / 10))
        (constPerms2 [0, 1]) 3 [(exG2, exP2)] [] exFixed2 []).1 ≠ none
    ∧ (optimise_partition_hierarchical exOpt (QVariant.cpm (1 / 10))
        (constPerms2 [0, 1]) 3 [(exG2, exP2)] [] exFixed2 []).2.1.hierarchy = [] := by
  refine ⟨by simp, ?_, ?_⟩
  · exact (claim9_theorem exOpt (QVariant.cpm (1 / 10)) (constPerms2 [0, 1]) 3
      [(exG2, exP2)] [] exFixed2 [] (by simp)).1.2 (by simp)
  · exact ((claim9_theorem exOpt (QVariant.cpm (1 / 10)) (constPerms2 [0, 1]) 3
      [(exG2, exP2)] [] exFixed2 [] (by simp)).2 (by simp)).2

/-- Witness for C10 at a concrete matching input. -/
theorem claim10_witness :
    ([(exG2, exP2)] : List (Graph × MutableVertexPartition)).length
        = ([1] : List ℚ).length
    ∧ ([(exG2, exP2)] : List (Graph × MutableVertexPartition)) ≠ []
    ∧ (optimise_partition_hierarchical exOpt (QVariant.cpm (1 / 10))
        (constPerms2 [0, 1]) 3 [(exG2, exP2)] [1] exFixed2 [(exK3, exK3P)]).1 = none
    ∧ (optimise_partition_hierarchical exOpt (QVariant.cpm (1 / 10))
        (constPerms2 [0, 1]) 3 [(exG2, exP2)] [1] exFixed2 [(exK3, exK3P)]).2.1.hierarchy
        ≠ []
    ∧ (optimise_partition_hierarchical exOpt (QVariant.cpm (1 / 10))
        (constPerms2 [0, 1]) 3 [(exG2, exP2)] [1] exFixed2
          [(exK3, exK3P)]).2.1.hierarchy.head?
        = some (([(exG2, exP2)] : List (Graph × MutableVertexPartition)).headD
            defaultLevel) := by
  have h := claim10_theorem exOpt (QVariant.cpm (1 / 10)) (constPerms2 [0, 1]) 3
    [(exG2, exP2)] [1] exFixed2 [(exK3, exK3P)] rfl (by simp)
  exact ⟨rfl, by simp, h.1, h.2.1, h.2.2.1⟩
